import Mathlib

/-!
Verification of the structured-note persistence adapter of the
AWS_Blueprint_Automaker repository.

The adapter lives in src/features/aws-note/infrastructure/notion-client.ts
(class NotionClient: buildProperties, parseNotionPage, parseChoiceExplanations,
findExistingPage, upsertQuestionNote, getAllQuestions) with the category
normalizer also present in the Gemini client (analyzeQuestion).

Strings are modelled as lists of characters; the JavaScript string operations
used by the adapter (split on a literal separator, split on the marker regex,
replace of the leading number prefix, trim, includes, findIndex, toLowerCase,
whitespace-run replacement, stable sort) are given as executable definitions
that follow the JavaScript semantics on the relevant inputs.  All recursion is
structural or fuel-based so every definition evaluates by kernel reduction.
-/

namespace AwsNote

/-- Character-list model of a JavaScript string. -/
abbrev Str := List Char

/-- Whitespace characters recognised by trim and by the whitespace regex class. -/
def wsChar (c : Char) : Bool :=
  c = ' ' || c = '\t' || c = '\n' || c = '\r' || c = '\x0b' || c = '\x0c'

/-- JavaScript toLowerCase restricted to the ASCII letters. -/
def jsToLower (c : Char) : Char :=
  if c.toNat ≥ 65 ∧ c.toNat ≤ 90 then Char.ofNat (c.toNat + 32) else c

/-- Drop leading whitespace. -/
def trimL (s : Str) : Str := s.dropWhile wsChar

/-- Drop trailing whitespace. -/
def trimR (s : Str) : Str := (s.reverse.dropWhile wsChar).reverse

/-- JavaScript String.prototype.trim. -/
def jsTrim (s : Str) : Str := trimL (trimR s)

/-- Boolean prefix test on character lists. -/
def seqPrefixOf : Str → Str → Bool
  | [], _ => true
  | _ :: _, [] => false
  | a :: l, b :: m => a == b && seqPrefixOf l m

/-- JavaScript String.prototype.includes: the needle occurs inside the haystack. -/
def strIncludes (hay needle : Str) : Bool :=
  match hay with
  | [] => needle.isEmpty
  | _ :: t => seqPrefixOf needle hay || strIncludes t needle

/-- Fuelled worker for splitting on a literal separator, scanning left to right. -/
def splitSeqAux (sep : Str) : Nat → Str → Str → List Str
  | 0, acc, _ => [acc.reverse]
  | _ + 1, acc, [] => [acc.reverse]
  | f + 1, acc, c :: rest =>
    if seqPrefixOf sep (c :: rest) then
      acc.reverse :: splitSeqAux sep f [] ((c :: rest).drop sep.length)
    else
      splitSeqAux sep f (c :: acc) rest

/-- JavaScript String.prototype.split on a literal non-empty separator. -/
def jsSplit (sep s : Str) : List Str :=
  if sep = [] then s.map (fun c => [c]) else splitSeqAux sep (s.length + 1) [] s

/-- JavaScript Array.prototype.join with a separator. -/
def joinSep (sep : Str) : List Str → Str
  | [] => []
  | [p] => p
  | p :: q :: rest => p ++ sep ++ joinSep sep (q :: rest)

/-- Opening characters of the section marker. -/
def markerOpenM : Str := ['【', '選', '択', '肢']

/-- Recognise the choice-explanation section marker at the head of a string:
the literal opening characters, one or more ASCII digits, then the closing
bracket.  Returns the remainder after the marker, mirroring one match of the
marker regular expression anchored at the current scan position. -/
def markerConsume (s : Str) : Option Str :=
  if seqPrefixOf markerOpenM s then
    let rest := s.drop markerOpenM.length
    let ds := rest.takeWhile Char.isDigit
    if ds.isEmpty then none
    else if seqPrefixOf ['】'] (rest.drop ds.length) then
      some ((rest.drop ds.length).drop 1)
    else none
  else none

/-- Fuelled worker splitting on every occurrence of the marker pattern. -/
def splitMarkerAux : Nat → Str → Str → List Str
  | 0, acc, _ => [acc.reverse]
  | _ + 1, acc, [] => [acc.reverse]
  | f + 1, acc, c :: rest =>
    match markerConsume (c :: rest) with
    | some rem => acc.reverse :: splitMarkerAux f [] rem
    | none => splitMarkerAux f (c :: acc) rest

/-- JavaScript String.prototype.split on the choice-explanation marker regex. -/
def splitMarker (s : Str) : List Str := splitMarkerAux (s.length + 1) [] s

/-- The character of a single decimal digit. -/
def digitChar : Nat → Char
  | 0 => '0'
  | 1 => '1'
  | 2 => '2'
  | 3 => '3'
  | 4 => '4'
  | 5 => '5'
  | 6 => '6'
  | 7 => '7'
  | 8 => '8'
  | _ => '9'

/-- Decimal digit characters of a natural number, most significant first. -/
def decDigitsAux : Nat → Nat → List Char
  | 0, _ => []
  | f + 1, n =>
    if n < 10 then [digitChar n]
    else decDigitsAux f (n / 10) ++ [digitChar (n % 10)]

/-- Decimal representation of a natural number as printed by JavaScript. -/
def decDigits (n : Nat) : List Char := decDigitsAux (n + 1) n

/-- Decimal representation of an integer as printed by JavaScript. -/
def intDigits (i : Int) : List Char :=
  if i < 0 then '-' :: decDigits i.natAbs else decDigits i.toNat

/-- Strip the leading number-dot-whitespace prefix of a choice line, mirroring
one anchored replacement of the number-prefix regular expression. -/
def stripNumPrefixMarker (line : Str) : Str :=
  if (line.takeWhile Char.isDigit).isEmpty then line
  else if seqPrefixOf ['.'] (line.drop (line.takeWhile Char.isDigit).length) then
    ((line.drop (line.takeWhile Char.isDigit).length).drop 1).dropWhile wsChar
  else line

/-- Worker replacing whitespace runs: the flag records whether the scan is
currently inside a run whose hyphen has already been emitted. -/
def hyphenateWsAux : Bool → Str → Str
  | _, [] => []
  | inRun, c :: rest =>
    if wsChar c then
      (if inRun then [] else ['-']) ++ hyphenateWsAux true rest
    else c :: hyphenateWsAux false rest

/-- Replace every maximal run of whitespace with a single hyphen, mirroring a
global replacement of the whitespace-run regular expression. -/
def hyphenateWs (s : Str) : Str := hyphenateWsAux false s

/-- Map with the element index, starting from a given offset. -/
def mapIdxFrom (f : Nat → α → β) (i : Nat) : List α → List β
  | [] => []
  | a :: l => f i a :: mapIdxFrom f (i + 1) l

/-- JavaScript Array.prototype.findIndex, with none for the -1 result. -/
def jsFindIndex (p : α → Bool) : List α → Option Nat
  | [] => none
  | a :: l => if p a then some 0 else (jsFindIndex p l).map (· + 1)

/-- Conversion from a Lean string literal to the character-list model. -/
def str (s : String) : Str := s.data

/-- Per-choice explanation entry of the domain entity (entities/types.ts). -/
structure ChoiceExplanation where
  choiceNumber : Int
  choiceText : Str
  isCorrect : Bool
  explanation : Str
deriving DecidableEq, Repr, Inhabited

/-- The domain entity ExamQuestionNote (entities/types.ts). -/
structure ExamQuestionNote where
  questionText : Str
  choices : List Str
  correctAnswer : Int
  correctChoiceText : Str
  explanation : Str
  relatedServices : List Str
  wellArchitectedCategories : List Str
  choiceExplanations : List ChoiceExplanation
  learningPoints : List Str
  architectureDiagram : Option Str
  similarQuestionsHint : Option Str
deriving DecidableEq, Repr, Inhabited

/-- External record: the flat Notion property bag.  Each title/rich-text
property carries the list of its text segments (the decoder only ever reads
segment 0); the number property may be absent; multi-select properties carry
their tag names.  An absent rich-text property is identified with an empty
segment list, which the decoder cannot distinguish from it. -/
structure RawPage where
  questionTextT : List Str
  choicesT : List Str
  correctAnswerN : Option Int
  correctChoiceTextT : List Str
  explanationT : List Str
  relatedServicesM : List Str
  wellArchitectedM : List Str
  choiceExplanationsT : List Str
  learningPointsT : List Str
  architectureDiagramT : List Str
  similarQuestionsHintT : List Str
deriving DecidableEq, Repr, Inhabited

/-- The success glyph of a choice-explanation section. -/
def glyphOk : Str := str "✓ 正解"

/-- The failure glyph of a choice-explanation section. -/
def glyphNg : Str := str "✗ 不正解"

/-- Opening characters of the section marker. -/
def markerOpen : Str := str "【選択肢"

/-- Closing character of the section marker. -/
def markerClose : Str := str "】"

/-- The learning-points separator. -/
def nlBullet : Str := str "\n• "

/-- One numbered line of the encoded choice list. -/
def choiceLine (i : Nat) (c : Str) : Str := decDigits (i + 1) ++ '.' :: ' ' :: c

/-- The encoded choice-list block (buildProperties, choicesText). -/
def encodeChoices (choices : List Str) : Str :=
  joinSep ['\n'] (mapIdxFrom choiceLine 0 choices)

/-- One encoded choice-explanation section (buildProperties). -/
def ceSection (ce : ChoiceExplanation) : Str :=
  markerOpen ++ intDigits ce.choiceNumber ++ markerClose ++
    (if ce.isCorrect then glyphOk else glyphNg) ++
    '\n' :: ce.choiceText ++ '\n' :: ce.explanation

/-- The encoded choice-explanations block (buildProperties). -/
def encodeChoiceExplanations (ces : List ChoiceExplanation) : Str :=
  joinSep (str "\n\n") (ces.map ceSection)

/-- NotionClient.buildProperties: encode a note into the flat property bag.
The optional properties are set only when present and non-empty. -/
def buildProperties (note : ExamQuestionNote) : RawPage where
  questionTextT := [note.questionText]
  choicesT := [encodeChoices note.choices]
  correctAnswerN := some note.correctAnswer
  correctChoiceTextT := [note.correctChoiceText]
  explanationT := [note.explanation]
  relatedServicesM := note.relatedServices
  wellArchitectedM := note.wellArchitectedCategories
  choiceExplanationsT := [encodeChoiceExplanations note.choiceExplanations]
  learningPointsT := [joinSep nlBullet note.learningPoints]
  architectureDiagramT :=
    match note.architectureDiagram with
    | some s => if s = [] then [] else [s]
    | none => []
  similarQuestionsHintT :=
    match note.similarQuestionsHint with
    | some s => if s = [] then [] else [s]
    | none => []

/-- Content of segment 0 of a title/rich-text property, with the empty string
default used on required properties. -/
def headContent (l : List Str) : Str := l.head?.getD []

/-- Content of segment 0 of an optional property; empty content collapses to
absent, mirroring the falsy coalescing in the decoder. -/
def optContent (l : List Str) : Option Str :=
  match l.head? with
  | some c => if c = [] then none else some c
  | none => none

/-- Decode the choice-list block: split lines, strip number markers, trim,
and keep the non-empty results. -/
def decodeChoicesText (t : Str) : List Str :=
  ((jsSplit ['\n'] t).map (fun line => jsTrim (stripNumPrefixMarker line))).filter
    (fun c => !c.isEmpty)

/-- Decode the learning-points block: split on the bullet separator, trim,
keep the non-empty results. -/
def decodeLearningPoints (t : Str) : List Str :=
  ((jsSplit nlBullet t).map jsTrim).filter (fun p => !p.isEmpty)

/-- Fallback normalization of a category label: lower-case, then replace each
whitespace run with a hyphen.  This is the form used on the decode path. -/
def normalizeFallback (s : Str) : Str := hyphenateWs (s.map jsToLower)

/-- The predicate used to locate a parsed section's choice: exact equality or
the choice containing the section's choice text. -/
def matchChoicePred (choiceText c : Str) : Bool :=
  c == choiceText || strIncludes c choiceText

/-- Parse one marker-delimited section into a choice-explanation entry, or
none when the section is too short or matches no choice. -/
def parseSection (choices : List Str) (sec : Str) : Option ChoiceExplanation :=
  let lines := jsSplit ['\n'] (jsTrim sec)
  if lines.length < 2 then none
  else
    let firstLine := lines.headD []
    let isCorrect := strIncludes firstLine glyphOk
    let choiceText := jsTrim (lines[1]?.getD [])
    let explanation := jsTrim (joinSep ['\n'] (lines.drop 2))
    match jsFindIndex (matchChoicePred choiceText) choices with
    | none => none
    | some k => some ⟨(k : Int) + 1, choiceText, isCorrect, explanation⟩

/-- All sections of the block that parse into an entry, in storage order. -/
def parsedExplanations (text : Str) (choices : List Str) : List ChoiceExplanation :=
  ((splitMarker text).filter (fun s => !(jsTrim s).isEmpty)).filterMap (parseSection choices)

/-- Explanations synthesized from the choices when no section parses. -/
def fallbackExplanations (choices : List Str) (correctAnswer : Int) :
    List ChoiceExplanation :=
  mapIdxFrom (fun i c => ⟨(i : Int) + 1, c, (i : Int) + 1 == correctAnswer, []⟩) 0 choices

/-- Comparison by choice number, the order used by the final sort. -/
def ceLE (a b : ChoiceExplanation) : Prop := a.choiceNumber ≤ b.choiceNumber

instance : DecidableRel ceLE := fun a b => Int.decLe a.choiceNumber b.choiceNumber

instance : IsTotal ChoiceExplanation ceLE :=
  ⟨fun a b => Int.le_total a.choiceNumber b.choiceNumber⟩

instance : IsTrans ChoiceExplanation ceLE :=
  ⟨fun _ _ _ hab hbc => Int.le_trans hab hbc⟩

/-- NotionClient.parseChoiceExplanations: parse the stored block, falling back
to synthesized entries when nothing parses, backfilling any choice number not
covered, and sorting by choice number (a stable sort, as Array.sort is). -/
def parseChoiceExplanations (text : Str) (choices : List Str) (correctAnswer : Int) :
    List ChoiceExplanation :=
  let explanations := parsedExplanations text choices
  if explanations = [] then fallbackExplanations choices correctAnswer
  else
    let existingNumbers := explanations.map (·.choiceNumber)
    let backfilled := explanations ++
      (List.range choices.length).filterMap (fun (i : Nat) =>
        if ((i : Int) + 1) ∈ existingNumbers then none
        else some ⟨(i : Int) + 1, (choices.get? i).getD [], false, []⟩)
    List.insertionSort ceLE backfilled

/-- NotionClient.parseNotionPage: decode a flat record into a note, or none
when the title is empty, the recovered choice list is empty, or the numeric
correct answer is missing or out of range. -/
def parseNotionPage (page : RawPage) : Option ExamQuestionNote :=
  let questionText := headContent page.questionTextT
  if questionText = [] then none
  else
    let choices := decodeChoicesText (headContent page.choicesT)
    if choices = [] then none
    else
      match page.correctAnswerN with
      | none => none
      | some correctAnswer =>
        if correctAnswer < 1 ∨ correctAnswer > (choices.length : Int) then none
        else
          some
            { questionText := questionText
              choices := choices
              correctAnswer := correctAnswer
              correctChoiceText := headContent page.correctChoiceTextT
              explanation := headContent page.explanationT
              relatedServices := page.relatedServicesM
              wellArchitectedCategories := page.wellArchitectedM.map normalizeFallback
              choiceExplanations :=
                parseChoiceExplanations (headContent page.choiceExplanationsT)
                  choices correctAnswer
              learningPoints := decodeLearningPoints (headContent page.learningPointsT)
              architectureDiagram := optContent page.architectureDiagramT
              similarQuestionsHint := optContent page.similarQuestionsHintT }

/-- The category lookup table of the Gemini client (analyzeQuestion), mapping
human-readable pillar variants to canonical slugs. -/
def pillarMapping : List (Str × Str) :=
  [(str "Cost Optimization", str "cost-optimization"),
   (str "cost optimization", str "cost-optimization"),
   (str "Performance Efficiency", str "performance-efficiency"),
   (str "performance efficiency", str "performance-efficiency"),
   (str "Reliability", str "reliability"),
   (str "reliability", str "reliability"),
   (str "Security", str "security"),
   (str "security", str "security"),
   (str "Operational Excellence", str "operational-excellence"),
   (str "operational excellence", str "operational-excellence"),
   (str "Sustainability", str "sustainability"),
   (str "sustainability", str "sustainability")]

/-- Own-entry lookup in the table: the value stored under the key when the
object literal itself carries it.  This is only the own-property half of the
JS access mapping[cat]; the full access also consults the prototype chain
(jsAccessMapping below). -/
def lookupMapping (k : Str) : Option Str :=
  (pillarMapping.find? (fun p => p.1 == k)).map (·.2)

/-- The property names an object literal inherits from Object.prototype.
Accessing any of them on the mapping yields the inherited member — a
function, or for the last one the prototype object itself — which is a
truthy non-string value. -/
def protoKeys : List Str :=
  [str "constructor", str "hasOwnProperty", str "isPrototypeOf",
   str "propertyIsEnumerable", str "toLocaleString", str "toString",
   str "valueOf", str "__defineGetter__", str "__defineSetter__",
   str "__lookupGetter__", str "__lookupSetter__", str "__proto__"]

/-- A value flowing through the category-normalization callback: a string,
or the truthy non-string member inherited from Object.prototype at the given
key (the callback can return such a value unchanged). -/
inductive JsValue where
  | strv : Str → JsValue
  | objv : Str → JsValue
deriving DecidableEq, Repr

/-- The object-literal property access mapping[cat]: the own entry when the
table carries the key, else the member inherited from Object.prototype, else
undefined (none). -/
def jsAccessMapping (k : Str) : Option JsValue :=
  match lookupMapping k with
  | some v => some (JsValue.strv v)
  | none => if k ∈ protoKeys then some (JsValue.objv k) else none

/-- The category callback of analyzeQuestion on an arbitrary array element:
a non-string passes through unchanged (the typeof guard); a string maps to
mapping[cat] when that access yields a truthy value, else to the lower-case
hyphenated fallback. -/
def normalizeCell : JsValue → JsValue
  | JsValue.objv k => JsValue.objv k
  | JsValue.strv s =>
    match jsAccessMapping s with
    | some v => v
    | none => JsValue.strv (normalizeFallback s)

/-- The six canonical pillar slugs. -/
def pillarSlugs : List Str :=
  [str "cost-optimization", str "performance-efficiency", str "reliability",
   str "security", str "operational-excellence", str "sustainability"]

/-- Write-side model of the external store: identified records, the next
fresh identifier, and a flag modelling a transport failure of the query
endpoint (the only endpoint whose errors findExistingPage swallows). -/
structure WriteStore where
  pages : List (Nat × RawPage)
  nextId : Nat
  queryFails : Bool
deriving Repr

/-- Plain text of a record's title property, as the query filter sees it. -/
def titlePlainText (p : RawPage) : Str := p.questionTextT.flatten

/-- The records whose title contains the search key, in store order,
modelling the database query with the title-contains filter. -/
def queryContains (s : WriteStore) (key : Str) : List (Nat × RawPage) :=
  s.pages.filter (fun pr => strIncludes (titlePlainText pr.2) key)

/-- NotionClient.findExistingPage: the first query hit, with any transport
failure swallowed into a not-found answer. -/
def findExistingPage (s : WriteStore) (key : Str) : Option Nat :=
  if s.queryFails then none else (queryContains s key).head?.map (·.1)

/-- A page update writes the provided properties; optional properties absent
from the payload keep their stored value. -/
def updatedProperties (old new : RawPage) : RawPage :=
  { new with
    architectureDiagramT :=
      if new.architectureDiagramT = [] then old.architectureDiagramT
      else new.architectureDiagramT
    similarQuestionsHintT :=
      if new.similarQuestionsHintT = [] then old.similarQuestionsHintT
      else new.similarQuestionsHintT }

/-- NotionClient.upsertQuestionNote: search by the first 50 characters of the
question text; update the found record, else create a new one.  Returns the
resulting identifier and store. -/
def upsertQuestionNote (s : WriteStore) (note : ExamQuestionNote) : Nat × WriteStore :=
  let searchKey := note.questionText.take 50
  match findExistingPage s searchKey with
  | some pageId =>
    (pageId,
      { s with
        pages := s.pages.map (fun pr =>
          if pr.1 = pageId then (pr.1, updatedProperties pr.2 (buildProperties note))
          else pr) })
  | none =>
    (s.nextId,
      { s with
        pages := s.pages ++ [(s.nextId, buildProperties note)]
        nextId := s.nextId + 1 })

/-- Read-side model of the external store: the records in store order;
queries page through them 100 at a time. -/
structure ReadStore where
  pages : List RawPage
deriving Repr

/-- Fuelled pagination loop of getAllQuestions: fetch a batch of 100 records
at the cursor, decode each record independently keeping the non-null decodes,
and continue while the store reports more results. -/
def getAllQuestionsAux : Nat → List RawPage → Nat → List ExamQuestionNote
  | 0, _, _ => []
  | f + 1, pages, cursor =>
    let notes := ((pages.drop cursor).take 100).filterMap parseNotionPage
    if cursor + 100 < pages.length then notes ++ getAllQuestionsAux f pages (cursor + 100)
    else notes

/-- NotionClient.getAllQuestions: exhaustive paginated scan with page size
100, following the cursor until the store reports no more results. -/
def getAllQuestions (s : ReadStore) : List ExamQuestionNote :=
  getAllQuestionsAux (s.pages.length + 1) s.pages 0

theorem seqPrefixOf_iff {p s : Str} : seqPrefixOf p s = true ↔ ∃ t, s = p ++ t := by
  induction p generalizing s with
  | nil => simp only [seqPrefixOf, List.nil_append, true_iff]; exact ⟨s, rfl⟩
  | cons a l ih =>
    cases s with
    | nil =>
      simp only [seqPrefixOf, List.cons_append]
      constructor
      · intro h; exact absurd h (by simp)
      · rintro ⟨t, h⟩; exact absurd h (by simp)
    | cons b m =>
      simp only [seqPrefixOf, Bool.and_eq_true, beq_iff_eq, ih, List.cons_append,
        List.cons.injEq]
      constructor
      · rintro ⟨rfl, t, rfl⟩; exact ⟨t, rfl, rfl⟩
      · rintro ⟨t, rfl, rfl⟩; exact ⟨rfl, t, rfl⟩

theorem seqPrefixOf_append (p t : Str) : seqPrefixOf p (p ++ t) = true :=
  seqPrefixOf_iff.mpr ⟨t, rfl⟩

theorem seqPrefixOf_take {p s : Str} : seqPrefixOf p s = true ↔ s.take p.length = p := by
  rw [seqPrefixOf_iff]
  constructor
  · rintro ⟨t, rfl⟩; simp
  · intro h; exact ⟨s.drop p.length, by conv_lhs => rw [← List.take_append_drop p.length s, h]⟩

theorem seqPrefixOf_append_right {p x : Str} (y : Str) (h : p.length ≤ x.length) :
    seqPrefixOf p (x ++ y) = seqPrefixOf p x := by
  cases hx : seqPrefixOf p x with
  | true =>
    rw [seqPrefixOf_take] at hx ⊢
    rw [List.take_append_of_le_length h, hx]
  | false =>
    cases hxy : seqPrefixOf p (x ++ y) with
    | false => rfl
    | true =>
      rw [seqPrefixOf_take, List.take_append_of_le_length h, ← seqPrefixOf_take] at hxy
      rw [hx] at hxy; exact hxy.symm

theorem strIncludes_iff {hay nd : Str} :
    strIncludes hay nd = true ↔ ∃ u v, hay = u ++ nd ++ v := by
  induction hay with
  | nil =>
    simp only [strIncludes, List.isEmpty_iff]
    constructor
    · rintro rfl; exact ⟨[], [], rfl⟩
    · rintro ⟨u, v, h⟩
      rcases List.append_eq_nil.mp h.symm with ⟨h1, h2⟩
      exact (List.append_eq_nil.mp h1).2
  | cons c t ih =>
    simp only [strIncludes, Bool.or_eq_true, seqPrefixOf_iff, ih]
    constructor
    · rintro (⟨w, hw⟩ | ⟨u, v, huv⟩)
      · exact ⟨[], w, by simpa using hw⟩
      · exact ⟨c :: u, v, by simp [huv]⟩
    · rintro ⟨u, v, huv⟩
      cases u with
      | nil => exact Or.inl ⟨v, by simpa using huv⟩
      | cons a u2 =>
        right
        rw [List.cons_append, List.cons_append, List.cons.injEq] at huv
        exact ⟨u2, v, huv.2⟩

theorem strIncludes_of_mid (u nd v : Str) : strIncludes (u ++ nd ++ v) nd = true :=
  strIncludes_iff.mpr ⟨u, v, rfl⟩

theorem trimL_cons_not_ws {c : Char} (s : Str) (h : wsChar c = false) :
    trimL (c :: s) = c :: s := by
  simp [trimL, List.dropWhile_cons, h]

theorem trimL_eq_self_of_head {s : Str} (h : ∀ c, s.head? = some c → wsChar c = false) :
    trimL s = s := by
  cases s with
  | nil => rfl
  | cons c t => exact trimL_cons_not_ws t (h c rfl)

theorem trimR_append_allws {s w : Str} (h : ∀ c ∈ w, wsChar c = true) :
    trimR (s ++ w) = trimR s := by
  unfold trimR
  rw [List.reverse_append, List.dropWhile_append]
  have hw : w.reverse.dropWhile wsChar = [] := by
    rw [List.dropWhile_eq_nil_iff]
    intro c hc; exact h c (List.mem_reverse.mp hc)
  simp [hw]

theorem trimR_eq_self_of_last {s : Str} (h : ∀ c, s.getLast? = some c → wsChar c = false) :
    trimR s = s := by
  unfold trimR
  cases hs : s.reverse with
  | nil => simpa using congrArg List.reverse hs
  | cons c t =>
    have hc : s.getLast? = some c := by
      rw [← List.head?_reverse, hs]; rfl
    rw [List.dropWhile_cons, h c hc]
    simp only [Bool.false_eq_true, if_false]
    rw [← hs, List.reverse_reverse]

theorem splitSeqAux_fuel {sep : Str} (hsep : sep ≠ []) :
    ∀ (f g : Nat) (acc s : Str), s.length < f → s.length < g →
      splitSeqAux sep f acc s = splitSeqAux sep g acc s := by
  intro f
  induction f with
  | zero => intro g acc s hf _; exact absurd hf (by omega)
  | succ f ih =>
    intro g acc s hf hg
    cases g with
    | zero => exact absurd hg (by omega)
    | succ g =>
      cases s with
      | nil => rfl
      | cons c rest =>
        have hsl : 1 ≤ sep.length := List.length_pos.mpr hsep
        simp only [splitSeqAux]
        split
        · exact congrArg _ (ih g [] _
            (by rw [List.length_drop]; simp only [List.length_cons] at hf ⊢; omega)
            (by rw [List.length_drop]; simp only [List.length_cons] at hg ⊢; omega))
        · exact ih g (c :: acc) rest (by simp only [List.length_cons] at hf; omega)
            (by simp only [List.length_cons] at hg; omega)

/-- A piece is boundary-free for a separator when no occurrence of the
separator starts inside the piece, even using characters supplied by a
following separator. -/
def BFree (sep p : Str) : Prop :=
  ∀ i < p.length, seqPrefixOf sep (p.drop i ++ sep) = false

theorem splitSeqAux_emit {sep : Str} (hsep : sep ≠ []) :
    ∀ (p : Str) (f : Nat) (acc rest : Str), (p ++ sep ++ rest).length < f →
      BFree sep p →
      splitSeqAux sep f acc (p ++ sep ++ rest) =
        (acc.reverse ++ p) :: splitSeqAux sep (rest.length + 1) [] rest := by
  intro p
  induction p with
  | nil =>
    intro f acc rest hf _
    cases f with
    | zero => exact absurd hf (by omega)
    | succ f =>
      cases hsepc : sep with
      | nil => exact absurd hsepc hsep
      | cons a sep2 =>
        subst hsepc
        show splitSeqAux (a :: sep2) (f + 1) acc (a :: (sep2 ++ rest)) =
          (acc.reverse ++ []) :: splitSeqAux (a :: sep2) (rest.length + 1) [] rest
        simp only [splitSeqAux]
        have hpre : seqPrefixOf (a :: sep2) (a :: (sep2 ++ rest)) = true :=
          seqPrefixOf_append (a :: sep2) rest
        rw [if_pos hpre]
        have hdrop : (a :: (sep2 ++ rest)).drop (a :: sep2).length = rest :=
          List.drop_left (a :: sep2) rest
        rw [hdrop, List.append_nil]
        refine congrArg _ ?_
        refine splitSeqAux_fuel (by simp) f (rest.length + 1) [] rest ?_ ?_
        · simp only [List.nil_append, List.cons_append, List.length_append,
            List.length_cons] at hf
          omega
        · omega
  | cons a p ih =>
    intro f acc rest hf hb
    cases f with
    | zero => exact absurd hf (by omega)
    | succ f =>
      show splitSeqAux sep (f + 1) acc (a :: (p ++ sep ++ rest)) =
        (acc.reverse ++ (a :: p)) :: splitSeqAux sep (rest.length + 1) [] rest
      simp only [splitSeqAux]
      have hfalse : seqPrefixOf sep (a :: (p ++ (sep ++ rest))) = false := by
        have h0 : seqPrefixOf sep ((a :: p).drop 0 ++ sep) = false := hb 0 (by simp)
        simp only [List.drop_zero] at h0
        have heq : a :: (p ++ (sep ++ rest)) = ((a :: p) ++ sep) ++ rest := by simp
        rw [heq, seqPrefixOf_append_right rest (by simp; omega)]
        simpa using h0
      rw [if_neg (by simp [hfalse])]
      have hb2 : BFree sep p := by
        intro i hi
        have := hb (i + 1) (by simp only [List.length_cons]; omega)
        simpa using this
      rw [ih f (a :: acc) rest
        (by simp only [List.cons_append, List.length_cons, List.length_append] at hf ⊢; omega) hb2]
      simp

theorem splitSeqAux_last {sep : Str} (hsep : sep ≠ []) :
    ∀ (p : Str) (f : Nat) (acc : Str), p.length < f → BFree sep p →
      splitSeqAux sep f acc p = [acc.reverse ++ p] := by
  intro p
  induction p with
  | nil =>
    intro f acc hf _
    cases f with
    | zero => exact absurd hf (by omega)
    | succ f => simp [splitSeqAux]
  | cons a p ih =>
    intro f acc hf hb
    cases f with
    | zero => exact absurd hf (by omega)
    | succ f =>
      simp only [splitSeqAux]
      have hfalse : seqPrefixOf sep (a :: p) = false := by
        have h0 : seqPrefixOf sep ((a :: p) ++ sep) = false := by
          have := hb 0 (by simp)
          simpa using this
        cases hsp : seqPrefixOf sep (a :: p) with
        | false => rfl
        | true =>
          rcases seqPrefixOf_iff.mp hsp with ⟨t, ht⟩
          have : seqPrefixOf sep ((a :: p) ++ sep) = true :=
            seqPrefixOf_iff.mpr ⟨t ++ sep, by rw [ht]; simp⟩
          rw [this] at h0; exact h0
      rw [if_neg (by simp [hfalse])]
      have hb2 : BFree sep p := by
        intro i hi
        have := hb (i + 1) (by simp; omega)
        simpa using this
      rw [ih f (a :: acc) (by simp only [List.length_cons] at hf; omega) hb2]
      simp

theorem jsSplit_append {sep p rest : Str} (hsep : sep ≠ []) (hb : BFree sep p) :
    jsSplit sep (p ++ sep ++ rest) = p :: jsSplit sep rest := by
  unfold jsSplit
  rw [if_neg hsep, if_neg hsep]
  rw [splitSeqAux_emit hsep p _ [] rest (by omega) hb]
  simp

theorem jsSplit_single {sep p : Str} (hsep : sep ≠ []) (hb : BFree sep p) :
    jsSplit sep p = [p] := by
  unfold jsSplit
  rw [if_neg hsep, splitSeqAux_last hsep p _ [] (by omega) hb]
  simp

theorem jsSplit_joinSep {sep : Str} (hsep : sep ≠ []) :
    ∀ (ps : List Str), ps ≠ [] → (∀ p ∈ ps, BFree sep p) →
      jsSplit sep (joinSep sep ps) = ps := by
  intro ps
  induction ps with
  | nil => intro h; exact absurd rfl h
  | cons p qs ih =>
    intro _ hb
    cases qs with
    | nil => exact jsSplit_single hsep (hb p (by simp))
    | cons q rest =>
      show jsSplit sep (p ++ sep ++ joinSep sep (q :: rest)) = _
      rw [jsSplit_append hsep (hb p (by simp))]
      rw [ih (by simp) (fun x hx => hb x (by simp [hx]))]

theorem splitSeqAux_ne_nil {sep : Str} :
    ∀ (f : Nat) (acc s : Str), splitSeqAux sep f acc s ≠ [] := by
  intro f
  induction f with
  | zero => intro acc s; simp [splitSeqAux]
  | succ f ih =>
    intro acc s
    cases s with
    | nil => simp [splitSeqAux]
    | cons c rest =>
      simp only [splitSeqAux]
      split
      · simp
      · exact ih (c :: acc) rest

theorem joinSep_splitSeqAux {sep : Str} (hsep : sep ≠ []) :
    ∀ (f : Nat) (acc s : Str), s.length < f →
      joinSep sep (splitSeqAux sep f acc s) = acc.reverse ++ s := by
  intro f
  induction f with
  | zero => intro acc s h; exact absurd h (by omega)
  | succ f ih =>
    intro acc s hf
    cases s with
    | nil => simp [splitSeqAux, joinSep]
    | cons c rest =>
      simp only [splitSeqAux]
      split
      case isTrue h =>
        obtain ⟨t, ht⟩ := seqPrefixOf_iff.mp h
        have hdrop : (c :: rest).drop sep.length = t := by
          rw [ht]; exact List.drop_left sep t
        rw [hdrop]
        have hlen : t.length < f := by
          have : (c :: rest).length = sep.length + t.length := by rw [ht]; simp
          have hsl : 1 ≤ sep.length := List.length_pos.mpr hsep
          simp only [List.length_cons] at this hf
          omega
        cases hsplit : splitSeqAux sep f [] t with
        | nil => exact absurd hsplit (splitSeqAux_ne_nil f [] t)
        | cons x l =>
          show joinSep sep (acc.reverse :: x :: l) = acc.reverse ++ (c :: rest)
          have hjoin : joinSep sep (x :: l) = t := by
            have := ih [] t hlen
            rw [hsplit] at this
            simpa using this
          show acc.reverse ++ sep ++ joinSep sep (x :: l) = acc.reverse ++ (c :: rest)
          rw [hjoin, ht]
          simp
      case isFalse h =>
        rw [ih (c :: acc) rest (by simp only [List.length_cons] at hf; omega)]
        simp

theorem joinSep_jsSplit {sep : Str} (hsep : sep ≠ []) (s : Str) :
    joinSep sep (jsSplit sep s) = s := by
  unfold jsSplit
  rw [if_neg hsep]
  simpa using joinSep_splitSeqAux hsep (s.length + 1) [] s (by omega)

theorem bfree_of_not_mem {a : Char} {p : Str} (h : a ∉ p) : BFree [a] p := by
  intro i hi
  cases hd : p.drop i with
  | nil =>
    have hlen : (p.drop i).length = p.length - i := List.length_drop i p
    rw [hd] at hlen
    simp only [List.length_nil] at hlen
    omega
  | cons c t =>
    have hc : c ∈ p := List.mem_of_mem_drop (by rw [hd]; exact List.mem_cons_self c t)
    show seqPrefixOf [a] ((c :: t) ++ [a]) = false
    simp only [List.cons_append, seqPrefixOf, Bool.and_eq_false_iff]
    left
    exact beq_eq_false_iff_ne.mpr fun hac => h (hac ▸ hc)

theorem bfree_nlBullet {p : Str} (h : strIncludes p nlBullet = false) : BFree nlBullet p := by
  have hnb : nlBullet = ['\n', '•', ' '] := rfl
  intro i hi
  by_contra hcon
  rw [Bool.not_eq_false] at hcon
  have hlen : (p.drop i).length = p.length - i := List.length_drop i p
  rcases Nat.lt_or_ge (p.drop i).length 3 with h3 | h3
  · have : (p.drop i).length = 1 ∨ (p.drop i).length = 2 := by omega
    rcases this with h1 | h2
    · obtain ⟨c, hc⟩ := List.length_eq_one.mp h1
      rw [hc, hnb] at hcon
      simp [seqPrefixOf] at hcon
    · obtain ⟨c1, c2, hc⟩ := List.length_eq_two.mp h2
      rw [hc, hnb] at hcon
      simp [seqPrefixOf] at hcon
  · have heq : seqPrefixOf nlBullet (p.drop i ++ nlBullet) = seqPrefixOf nlBullet (p.drop i) :=
      seqPrefixOf_append_right nlBullet (by rw [hnb]; simpa using h3)
    rw [heq] at hcon
    obtain ⟨t, ht⟩ := seqPrefixOf_iff.mp hcon
    have hp : p = p.take i ++ nlBullet ++ t := by
      conv_lhs => rw [← List.take_append_drop i p]
      rw [ht, List.append_assoc]
    have := strIncludes_of_mid (p.take i) nlBullet t
    rw [← hp] at this
    rw [this] at h
    exact absurd h (by simp)

theorem digitChar_isDigit : ∀ n < 10, (digitChar n).isDigit = true := by decide

theorem decDigitsAux_digits :
    ∀ (f n : Nat), ∀ c ∈ decDigitsAux f n, c.isDigit = true := by
  intro f
  induction f with
  | zero => intro n c hc; simp [decDigitsAux] at hc
  | succ f ih =>
    intro n c hc
    simp only [decDigitsAux] at hc
    split at hc
    case isTrue h =>
      simp only [List.mem_singleton] at hc
      exact hc ▸ digitChar_isDigit n h
    case isFalse h =>
      rcases List.mem_append.mp hc with h1 | h2
      · exact ih (n / 10) c h1
      · simp only [List.mem_singleton] at h2
        exact h2 ▸ digitChar_isDigit (n % 10) (Nat.mod_lt n (by omega))

theorem decDigits_digits {n : Nat} : ∀ c ∈ decDigits n, c.isDigit = true :=
  decDigitsAux_digits (n + 1) n

theorem decDigits_ne_nil (n : Nat) : decDigits n ≠ [] := by
  unfold decDigits decDigitsAux
  split <;> simp

theorem takeWhile_all_append {p : Char → Bool} :
    ∀ (u : Str) {a : Char} (v : Str), (∀ c ∈ u, p c = true) → p a = false →
      (u ++ a :: v).takeWhile p = u := by
  intro u
  induction u with
  | nil => intro a v _ ha; simp [List.takeWhile_cons, ha]
  | cons b u ih =>
    intro a v hu ha
    have hb := hu b (List.mem_cons_self b u)
    simp [List.cons_append, List.takeWhile_cons, hb,
      ih v (fun c hc => hu c (List.mem_cons_of_mem b hc)) ha]

theorem markerConsume_assemble {ds : Str} (hne : ds ≠ [])
    (hd : ∀ c ∈ ds, Char.isDigit c = true) (r : Str) :
    markerConsume (markerOpenM ++ ds ++ '】' :: r) = some r := by
  simp only [markerConsume]
  have hsh : markerOpenM ++ ds ++ '】' :: r = markerOpenM ++ (ds ++ '】' :: r) := by simp
  have h1 : seqPrefixOf markerOpenM (markerOpenM ++ ds ++ '】' :: r) = true := by
    rw [hsh]; exact seqPrefixOf_append markerOpenM (ds ++ '】' :: r)
  rw [if_pos h1]
  have h2 : (markerOpenM ++ ds ++ '】' :: r).drop markerOpenM.length = ds ++ '】' :: r := by
    rw [hsh]; exact List.drop_left markerOpenM (ds ++ '】' :: r)
  rw [h2]
  have h3 : (ds ++ '】' :: r).takeWhile Char.isDigit = ds :=
    takeWhile_all_append ds r hd (by decide)
  rw [h3]
  rw [if_neg (by simp [List.isEmpty_iff, hne])]
  have h4 : (ds ++ '】' :: r).drop ds.length = '】' :: r := List.drop_left ds ('】' :: r)
  rw [h4]
  have h5 : seqPrefixOf ['】'] ('】' :: r) = true := seqPrefixOf_append ['】'] r
  rw [if_pos h5]
  rfl

theorem markerConsume_some_decomp {s r : Str} (h : markerConsume s = some r) :
    ∃ ds, ds ≠ [] ∧ (∀ c ∈ ds, Char.isDigit c = true) ∧
      s = markerOpenM ++ ds ++ '】' :: r := by
  simp only [markerConsume] at h
  split at h
  case isFalse => exact absurd h (by simp)
  case isTrue h1 =>
    split at h
    case isTrue => exact absurd h (by simp)
    case isFalse h2 =>
      split at h
      case isFalse => exact absurd h (by simp)
      case isTrue h3 =>
        obtain ⟨t, ht⟩ := seqPrefixOf_iff.mp h1
        have hrest : s.drop markerOpenM.length = t := by rw [ht]; exact List.drop_left _ _
        rw [hrest] at h h2 h3
        obtain ⟨w, hw⟩ := seqPrefixOf_iff.mp h3
        set D := t.takeWhile Char.isDigit with hD
        have htake : D = t.take D.length :=
          List.prefix_iff_eq_take.mp (List.takeWhile_prefix Char.isDigit)
        have hdec : t = D ++ '】' :: w := by
          conv_lhs => rw [← List.take_append_drop D.length t]
          rw [← htake, hw]
          simp
        have hr : r = w := by
          rw [hw] at h
          simpa using h.symm
        refine ⟨D, by simpa [List.isEmpty_iff] using h2,
          fun c hc => List.mem_takeWhile_imp hc, ?_⟩
        rw [ht, hdec, hr]
        simp

theorem markerConsume_length {s r : Str} (h : markerConsume s = some r) :
    r.length < s.length := by
  obtain ⟨ds, hne, _, rfl⟩ := markerConsume_some_decomp h
  have : 1 ≤ ds.length := List.length_pos.mpr hne
  simp only [List.length_append, List.length_cons, markerOpenM]
  simp only [List.length_cons, List.length_nil]
  omega

theorem markerConsume_cons_ne {c : Char} (x : Str) (hc : ¬ c = '【') :
    markerConsume (c :: x) = none := by
  have hfalse : seqPrefixOf markerOpenM (c :: x) = false := by
    have hb : ('【' == c) = false := beq_eq_false_iff_ne.mpr (fun h2 => hc h2.symm)
    show (('【' == c) && seqPrefixOf ['選', '択', '肢'] x) = false
    rw [hb, Bool.false_and]
  simp only [markerConsume]
  rw [if_neg (by simp [hfalse])]

theorem markerConsume_nil : markerConsume [] = none := rfl

/-- Marker-freeness: no suffix of the string begins with a marker match,
so the marker regular expression has no occurrence inside the string. -/
def MarkerFree (x : Str) : Prop := ∀ i, markerConsume (x.drop i) = none

/-- Executable marker-freeness check over the bounded set of suffixes. -/
def markerFreeB (x : Str) : Bool :=
  (List.range (x.length + 1)).all (fun i => (markerConsume (x.drop i)).isNone)

theorem markerFree_of_B {x : Str} (h : markerFreeB x = true) : MarkerFree x := by
  intro i
  rcases Nat.lt_or_ge i (x.length + 1) with hi | hi
  · have := List.all_eq_true.mp h i (List.mem_range.mpr hi)
    simpa [Option.isNone_iff_eq_none] using this
  · rw [List.drop_eq_nil_of_le (by omega)]
    exact markerConsume_nil

theorem newline_not_mem_marker {ds : Str} (hd : ∀ c ∈ ds, Char.isDigit c = true) :
    '\n' ∉ markerOpenM ++ ds ++ ['】'] := by
  intro hmem
  rcases List.mem_append.mp hmem with h1 | h2
  · rcases List.mem_append.mp h1 with h3 | h4
    · revert h3; decide
    · exact absurd (hd _ h4) (by decide)
  · simp only [List.mem_singleton] at h2
    exact absurd h2 (by decide)

/-- No marker occurrence starts inside the first component of this
concatenation, even using characters of the appended tail. -/
def MFreeT (s tail : Str) : Prop :=
  ∀ i < s.length, markerConsume (s.drop i ++ tail) = none

theorem mfreeT_of_markerFree {x tail : Str} (hx : MarkerFree x)
    (ht : tail = [] ∨ tail.head? = some '\n') : MFreeT x tail := by
  intro i hi
  cases hcon : markerConsume (x.drop i ++ tail) with
  | none => rfl
  | some r =>
    exfalso
    obtain ⟨ds, hne, hd, hshape⟩ := markerConsume_some_decomp hcon
    have hpre : x.drop i ++ tail = (markerOpenM ++ ds ++ ['】']) ++ r := by
      rw [hshape]; simp
    rcases le_or_lt (markerOpenM ++ ds ++ ['】']).length (x.drop i).length with hle | hgt
    · have htk : (x.drop i).take (markerOpenM ++ ds ++ ['】']).length =
          markerOpenM ++ ds ++ ['】'] := by
        have h1 : (x.drop i ++ tail).take (markerOpenM ++ ds ++ ['】']).length =
            markerOpenM ++ ds ++ ['】'] := by
          rw [hpre]; exact List.take_left _ _
        rw [← List.take_append_of_le_length hle]
        exact h1
      set w := (x.drop i).drop (markerOpenM ++ ds ++ ['】']).length with hwdef
      have hw : x.drop i = markerOpenM ++ ds ++ '】' :: w := by
        conv_lhs => rw [← List.take_append_drop (markerOpenM ++ ds ++ ['】']).length (x.drop i)]
        rw [htk, ← hwdef]; simp
      have hcon2 : markerConsume (x.drop i) = some w := by
        rw [hw]
        exact markerConsume_assemble hne hd w
      rw [hx i] at hcon2
      exact absurd hcon2 (by simp)
    · cases ht with
      | inl h0 =>
        rw [h0, List.append_nil] at hpre
        have := congrArg List.length hpre
        simp only [List.length_append] at this hgt
        omega
      | inr h0 =>
        have hk : (markerOpenM ++ ds ++ ['】']).length - (x.drop i).length ≥ 1 := by omega
        have htk : markerOpenM ++ ds ++ ['】'] =
            x.drop i ++ tail.take ((markerOpenM ++ ds ++ ['】']).length - (x.drop i).length) := by
          have h1 : (x.drop i ++ tail).take (markerOpenM ++ ds ++ ['】']).length =
              markerOpenM ++ ds ++ ['】'] := by
            rw [hpre]; exact List.take_left _ _
          have h2 : (x.drop i ++ tail).take (markerOpenM ++ ds ++ ['】']).length =
              x.drop i ++ tail.take ((markerOpenM ++ ds ++ ['】']).length - (x.drop i).length) := by
            rw [List.take_append_eq_append_take, List.take_of_length_le (by omega)]
          rw [h2] at h1
          exact h1.symm

        have hnl : '\n' ∈ markerOpenM ++ ds ++ ['】'] := by
          rw [htk]
          refine List.mem_append.mpr (Or.inr ?_)
          cases htail : tail with
          | nil => rw [htail] at h0; simp at h0
          | cons c tt =>
            rw [htail] at h0
            simp only [List.head?_cons, Option.some.injEq] at h0
            subst h0
            have : (markerOpenM ++ ds ++ ['】']).length - (x.drop i).length =
                ((markerOpenM ++ ds ++ ['】']).length - (x.drop i).length - 1) + 1 := by omega
            rw [this]
            simp [List.take_succ_cons]
        exact newline_not_mem_marker hd hnl

theorem splitMarkerAux_fuel :
    ∀ (f g : Nat) (acc s : Str), s.length < f → s.length < g →
      splitMarkerAux f acc s = splitMarkerAux g acc s := by
  intro f
  induction f with
  | zero => intro g acc s hf _; exact absurd hf (by omega)
  | succ f ih =>
    intro g acc s hf hg
    cases g with
    | zero => exact absurd hg (by omega)
    | succ g =>
      cases s with
      | nil => rfl
      | cons c rest =>
        simp only [splitMarkerAux]
        cases hmc : markerConsume (c :: rest) with
        | some rem =>
          have hlen := markerConsume_length hmc
          simp only [List.length_cons] at hlen hf hg
          exact congrArg _ (ih g [] rem (by omega) (by omega))
        | none =>
          simp only [List.length_cons] at hf hg
          exact ih g (c :: acc) rest (by omega) (by omega)

theorem splitMarkerAux_step_ne {c : Char} (hc : ¬ c = '【') (f : Nat) (acc x : Str) :
    splitMarkerAux (f + 1) acc (c :: x) = splitMarkerAux f (c :: acc) x := by
  simp only [splitMarkerAux, markerConsume_cons_ne x hc]

theorem splitMarkerAux_skip :
    ∀ (s : Str) (f : Nat) (acc tail : Str), (s ++ tail).length < f → MFreeT s tail →
      splitMarkerAux f acc (s ++ tail) =
        splitMarkerAux (tail.length + 1) (s.reverse ++ acc) tail := by
  intro s
  induction s with
  | nil =>
    intro f acc tail hf _
    simp only [List.nil_append, List.reverse_nil]
    exact splitMarkerAux_fuel f (tail.length + 1) acc tail (by simpa using hf) (by omega)
  | cons c s2 ih =>
    intro f acc tail hf hm
    cases f with
    | zero => exact absurd hf (by omega)
    | succ f =>
      show splitMarkerAux (f + 1) acc (c :: (s2 ++ tail)) = _
      simp only [splitMarkerAux]
      have hnone : markerConsume (c :: (s2 ++ tail)) = none := by
        have := hm 0 (by simp)
        simpa using this
      rw [hnone]
      have hm2 : MFreeT s2 tail := by
        intro i hi
        have := hm (i + 1) (by simp only [List.length_cons]; omega)
        simpa using this
      rw [ih f (c :: acc) tail
        (by simp only [List.cons_append, List.length_cons, List.length_append] at hf ⊢; omega) hm2]
      simp

theorem splitMarkerAux_marker {ds : Str} (hne : ds ≠ [])
    (hd : ∀ c ∈ ds, Char.isDigit c = true) :
    ∀ (f : Nat) (acc rest : Str), (markerOpenM ++ ds ++ '】' :: rest).length < f →
      splitMarkerAux f acc (markerOpenM ++ ds ++ '】' :: rest) =
        acc.reverse :: splitMarkerAux (rest.length + 1) [] rest := by
  intro f acc rest hf
  cases f with
  | zero => exact absurd hf (by omega)
  | succ f =>
    show splitMarkerAux (f + 1) acc ('【' :: (['選', '択', '肢'] ++ (ds ++ '】' :: rest))) = _
    simp only [splitMarkerAux]
    have hmc : markerConsume ('【' :: (['選', '択', '肢'] ++ (ds ++ '】' :: rest))) = some rest :=
      markerConsume_assemble hne hd rest
    rw [hmc]
    dsimp only
    refine congrArg _ ?_
    refine splitMarkerAux_fuel f (rest.length + 1) [] rest ?_ (by omega)
    simp only [List.length_append, List.length_cons, markerOpenM] at hf
    simp only [List.length_cons, List.length_nil] at hf
    omega

/-- A marker-headed section chain: each element carries the digit string of
its marker and its body; the chain is joined with blank lines, matching the
encoder's layout of the choice-explanations block. -/
def chainText (secs : List (Str × Str)) : Str :=
  joinSep ['\n', '\n'] (secs.map (fun p => markerOpenM ++ p.1 ++ '】' :: p.2))

/-- The pieces the marker split produces from a chain, past the empty lead. -/
def chainPieces : List (Str × Str) → List Str
  | [] => []
  | [p] => [p.2]
  | p :: q :: rest => (p.2 ++ ['\n', '\n']) :: chainPieces (q :: rest)

theorem splitMarkerAux_chain :
    ∀ (secs : List (Str × Str)) (f : Nat) (acc : Str), secs ≠ [] →
      (chainText secs).length < f →
      (∀ p ∈ secs, p.1 ≠ [] ∧ (∀ c ∈ p.1, Char.isDigit c = true) ∧ MarkerFree p.2) →
      splitMarkerAux f acc (chainText secs) = acc.reverse :: chainPieces secs := by
  intro secs
  induction secs with
  | nil => intro f acc h; exact absurd rfl h
  | cons p qs ih =>
    intro f acc _ hf hp
    obtain ⟨h1, h2, h3⟩ := hp p (List.mem_cons_self p qs)
    cases qs with
    | nil =>
      have hct : chainText [p] = markerOpenM ++ p.1 ++ '】' :: p.2 := by
        simp [chainText, joinSep]
      rw [hct] at hf ⊢
      rw [splitMarkerAux_marker h1 h2 f acc p.2 hf]
      show _ = acc.reverse :: [p.2]
      refine congrArg _ ?_
      have hskip := splitMarkerAux_skip p.2 (p.2.length + 1) [] []
        (by simp) (mfreeT_of_markerFree h3 (Or.inl rfl))
      rw [List.append_nil] at hskip
      rw [hskip]
      simp [splitMarkerAux]
    | cons q rest =>
      have hct : chainText (p :: q :: rest) =
          markerOpenM ++ p.1 ++ '】' :: (p.2 ++ '\n' :: '\n' :: chainText (q :: rest)) := by
        show joinSep ['\n', '\n'] ((markerOpenM ++ p.1 ++ '】' :: p.2) ::
          (q :: rest).map (fun x => markerOpenM ++ x.1 ++ '】' :: x.2)) = _
        cases hrm : (q :: rest).map (fun x => markerOpenM ++ x.1 ++ '】' :: x.2) with
        | nil => simp at hrm
        | cons y ys =>
          show (markerOpenM ++ p.1 ++ '】' :: p.2) ++ ['\n', '\n'] ++ joinSep ['\n', '\n'] (y :: ys) = _
          rw [show joinSep ['\n', '\n'] (y :: ys) = chainText (q :: rest) by rw [chainText, hrm]]
          simp
      rw [hct] at hf ⊢
      rw [splitMarkerAux_marker h1 h2 f acc _ hf]
      show _ = acc.reverse :: ((p.2 ++ ['\n', '\n']) :: chainPieces (q :: rest))
      refine congrArg _ ?_
      have hskip := splitMarkerAux_skip p.2
        ((p.2 ++ '\n' :: '\n' :: chainText (q :: rest)).length + 1) []
        ('\n' :: '\n' :: chainText (q :: rest))
        (by omega) (mfreeT_of_markerFree h3 (Or.inr rfl))
      rw [hskip]
      have hlen : ('\n' :: '\n' :: chainText (q :: rest)).length =
          (chainText (q :: rest)).length + 1 + 1 := by simp
      rw [hlen]
      rw [splitMarkerAux_step_ne (by decide) ((chainText (q :: rest)).length + 1 + 1) _ _]
      rw [splitMarkerAux_step_ne (by decide) ((chainText (q :: rest)).length + 1) _ _]
      rw [ih ((chainText (q :: rest)).length + 1) ('\n' :: '\n' :: (p.2.reverse ++ []))
        (by simp) (by omega) (fun x hx => hp x (List.mem_cons_of_mem p hx))]
      simp

theorem splitMarker_chain {secs : List (Str × Str)} (hne : secs ≠ [])
    (hp : ∀ p ∈ secs, p.1 ≠ [] ∧ (∀ c ∈ p.1, Char.isDigit c = true) ∧ MarkerFree p.2) :
    splitMarker (chainText secs) = [] :: chainPieces secs := by
  unfold splitMarker
  simpa using splitMarkerAux_chain secs ((chainText secs).length + 1) [] hne (by omega) hp

/-- A string unchanged by trimming on either side. -/
def TrimStable (s : Str) : Prop := trimL s = s ∧ trimR s = s

theorem length_trimR_le (s : Str) : (trimR s).length ≤ s.length := by
  unfold trimR
  rw [List.length_reverse]
  calc (s.reverse.dropWhile wsChar).length ≤ s.reverse.length :=
        (List.dropWhile_sublist wsChar).length_le
    _ = s.length := List.length_reverse s

theorem getLast_not_ws_of_trimR {s : Str} (h : trimR s = s) {c : Char}
    (hc : s.getLast? = some c) : wsChar c = false := by
  by_contra hw
  rw [Bool.not_eq_false] at hw
  obtain ⟨s2, hs2⟩ := List.getLast?_eq_some_iff.mp hc
  have : trimR s = trimR s2 := by
    rw [hs2]
    exact trimR_append_allws (by intro x hx; simp only [List.mem_singleton] at hx; exact hx ▸ hw)
  rw [h] at this
  have h1 := length_trimR_le s2
  rw [← this] at h1
  rw [hs2] at h1
  simp at h1

theorem trimR_append_right {A B : Str} (hB : trimR B = B) (hBne : B ≠ []) :
    trimR (A ++ B) = A ++ B := by
  refine trimR_eq_self_of_last ?_
  intro c hc
  rw [List.getLast?_append_of_ne_nil A hBne] at hc
  exact getLast_not_ws_of_trimR hB hc

theorem trimL_append_left {A B : Str} (hA : trimL A = A) (hAne : A ≠ []) :
    trimL (A ++ B) = A ++ B := by
  cases A with
  | nil => exact absurd rfl hAne
  | cons a A2 =>
    have ha : wsChar a = false := by
      by_contra hw
      rw [Bool.not_eq_false] at hw
      unfold trimL at hA
      rw [List.dropWhile_cons, hw] at hA
      have := congrArg List.length hA
      have h2 := (List.dropWhile_sublist (l := A2) wsChar).length_le
      simp at this
      omega
    exact trimL_cons_not_ws _ ha

theorem jsTrim_eq_self {s : Str} (hL : trimL s = s) (hR : trimR s = s) : jsTrim s = s := by
  unfold jsTrim
  rw [hR, hL]

/-- Trimming the body of an encoded section, with an all-whitespace suffix
appended by the blank-line join: the glyph and choice text survive, the
explanation keeps its text exactly when it is trim-stable, and an empty
explanation loses its separating newline. -/
theorem jsTrim_ceBody {g ct ex w : Str} (hg : g ≠ []) (hgh : ∀ c, g.head? = some c → wsChar c = false)
    (hct : TrimStable ct) (hctne : ct ≠ [])
    (hex : TrimStable ex)
    (hw : ∀ c ∈ w, wsChar c = true) :
    jsTrim ((g ++ '\n' :: (ct ++ '\n' :: ex)) ++ w) =
      g ++ '\n' :: (ct ++ (if ex = [] then [] else '\n' :: ex)) := by
  unfold jsTrim
  rw [trimR_append_allws hw]
  have hgL : trimL g = g := trimL_eq_self_of_head hgh
  by_cases hexne : ex = []
  · subst hexne
    have hsh : g ++ '\n' :: (ct ++ ['\n']) = (g ++ '\n' :: ct) ++ ['\n'] := by simp
    rw [hsh, trimR_append_allws (w := ['\n'])
      (by intro c hc; simp only [List.mem_singleton] at hc; subst hc; rfl)]
    have hsh2 : g ++ '\n' :: ct = (g ++ ['\n']) ++ ct := by simp
    rw [hsh2, trimR_append_right hct.2 hctne, ← hsh2]
    rw [trimL_append_left hgL hg]
    simp
  · rw [if_neg hexne]
    have hsh : g ++ '\n' :: (ct ++ '\n' :: ex) = (g ++ '\n' :: ct ++ ['\n']) ++ ex := by simp
    rw [hsh, trimR_append_right hex.2 hexne, ← hsh]
    exact trimL_append_left hgL hg

/-- The body of an encoded section, past its marker. -/
def ceBody (ce : ChoiceExplanation) : Str :=
  (if ce.isCorrect then glyphOk else glyphNg) ++ '\n' :: (ce.choiceText ++ '\n' :: ce.explanation)

theorem parseSection_piece {choices : List Str} {ce : ChoiceExplanation} {k : Nat} {w : Str}
    (hw : ∀ c ∈ w, wsChar c = true)
    (hct_ts : TrimStable ce.choiceText) (hct_ne : ce.choiceText ≠ [])
    (hct_nl : '\n' ∉ ce.choiceText)
    (hex_ts : TrimStable ce.explanation)
    (hfind : jsFindIndex (matchChoicePred ce.choiceText) choices = some k) :
    parseSection choices (ceBody ce ++ w) =
      some ⟨(k : Int) + 1, ce.choiceText, ce.isCorrect, ce.explanation⟩ := by
  set g := (if ce.isCorrect then glyphOk else glyphNg) with hgdef
  have hg_ne : g ≠ [] := by
    rw [hgdef]; split <;> decide
  have hg_h : ∀ c, g.head? = some c → wsChar c = false := by
    rw [hgdef]; split
    · intro c hc
      have h1 : some '✓' = some c := hc
      cases h1; decide
    · intro c hc
      have h1 : some '✗' = some c := hc
      cases h1; decide
  have hg_nl : '\n' ∉ g := by
    rw [hgdef]; split <;> decide
  have hg_inc : strIncludes g glyphOk = ce.isCorrect := by
    rw [hgdef]
    cases ce.isCorrect <;> simp <;> decide
  have htrim := @jsTrim_ceBody g ce.choiceText ce.explanation w
    hg_ne hg_h hct_ts hct_ne hex_ts hw
  show parseSection choices ((g ++ '\n' :: (ce.choiceText ++ '\n' :: ce.explanation)) ++ w) = _
  simp only [parseSection]
  rw [htrim]
  by_cases hexne : ce.explanation = []
  · rw [if_pos hexne]
    have hlines : jsSplit ['\n'] (g ++ '\n' :: (ce.choiceText ++ [])) = [g, ce.choiceText] := by
      rw [List.append_nil]
      have hsh : g ++ '\n' :: ce.choiceText = g ++ ['\n'] ++ ce.choiceText := by simp
      rw [hsh, jsSplit_append (by simp) (bfree_of_not_mem hg_nl)]
      rw [jsSplit_single (by simp) (bfree_of_not_mem hct_nl)]
    rw [hlines]
    rw [if_neg (by simp)]
    simp only [List.headD_cons]
    rw [hg_inc]
    have hl1 : ([g, ce.choiceText][1]?).getD [] = ce.choiceText := rfl
    rw [hl1, jsTrim_eq_self hct_ts.1 hct_ts.2]
    rw [hfind]
    have hdrop : ([g, ce.choiceText] : List Str).drop 2 = [] := rfl
    rw [hdrop]
    have hjt : jsTrim (joinSep ['\n'] ([] : List Str)) = [] := rfl
    rw [hjt, hexne]
  · rw [if_neg hexne]
    have hlines : jsSplit ['\n'] (g ++ '\n' :: (ce.choiceText ++ '\n' :: ce.explanation)) =
        g :: ce.choiceText :: jsSplit ['\n'] ce.explanation := by
      have hsh : g ++ '\n' :: (ce.choiceText ++ '\n' :: ce.explanation) =
          g ++ ['\n'] ++ (ce.choiceText ++ ['\n'] ++ ce.explanation) := by simp
      rw [hsh, jsSplit_append (by simp) (bfree_of_not_mem hg_nl)]
      rw [jsSplit_append (by simp) (bfree_of_not_mem hct_nl)]
    rw [hlines]
    rw [if_neg (by simp only [List.length_cons]; omega)]
    simp only [List.headD_cons]
    rw [hg_inc]
    have hl1 : ((g :: ce.choiceText :: jsSplit ['\n'] ce.explanation)[1]?).getD [] =
        ce.choiceText := by simp
    rw [hl1, jsTrim_eq_self hct_ts.1 hct_ts.2]
    rw [hfind]
    have hdrop : (g :: ce.choiceText :: jsSplit ['\n'] ce.explanation).drop 2 =
        jsSplit ['\n'] ce.explanation := rfl
    rw [hdrop, joinSep_jsSplit (by simp) ce.explanation,
      jsTrim_eq_self hex_ts.1 hex_ts.2]

theorem markerFree_append_newline {A B : Str} (hA : MarkerFree A) (hB : MarkerFree B) :
    MarkerFree (A ++ '\n' :: B) := by
  intro i
  rcases Nat.lt_trichotomy i A.length with h | h | h
  · rw [List.drop_append_eq_append_drop, Nat.sub_eq_zero_of_le (Nat.le_of_lt h), List.drop_zero]
    exact @mfreeT_of_markerFree A ('\n' :: B) hA (Or.inr rfl) i h
  · rw [List.drop_append_eq_append_drop, h, List.drop_length, Nat.sub_self, List.drop_zero,
      List.nil_append]
    exact markerConsume_cons_ne _ (by decide)
  · rw [List.drop_append_eq_append_drop, List.drop_eq_nil_of_le (by omega), List.nil_append]
    have h2 : i - A.length = (i - A.length - 1) + 1 := by omega
    rw [h2, List.drop_succ_cons]
    exact hB _

theorem markerFree_glyphOk : MarkerFree glyphOk := markerFree_of_B (by decide)

theorem markerFree_glyphNg : MarkerFree glyphNg := markerFree_of_B (by decide)

theorem intDigits_pos {i : Int} (h : 1 ≤ i) : intDigits i = decDigits i.toNat := by
  unfold intDigits
  rw [if_neg (by omega)]

/-- Cleanliness of one choice-explanation entry relative to the choice list:
positive number, tidy texts without newlines or marker occurrences, and a
choice-text match that resolves to the entry's own choice. -/
def CEClean (choices : List Str) (ce : ChoiceExplanation) : Prop :=
  1 ≤ ce.choiceNumber ∧
  TrimStable ce.choiceText ∧ ce.choiceText ≠ [] ∧ '\n' ∉ ce.choiceText ∧
  MarkerFree ce.choiceText ∧
  TrimStable ce.explanation ∧ MarkerFree ce.explanation ∧
  jsFindIndex (matchChoicePred ce.choiceText) choices = some (ce.choiceNumber.toNat - 1)

theorem markerFree_ceBody {ce : ChoiceExplanation} (hct : MarkerFree ce.choiceText)
    (hex : MarkerFree ce.explanation) : MarkerFree (ceBody ce) := by
  unfold ceBody
  refine markerFree_append_newline ?_ (markerFree_append_newline hct hex)
  split
  · exact markerFree_glyphOk
  · exact markerFree_glyphNg

theorem ceSection_eq (ce : ChoiceExplanation) :
    ceSection ce = markerOpenM ++ intDigits ce.choiceNumber ++ '】' :: ceBody ce := by
  unfold ceSection ceBody
  rw [show markerOpen = markerOpenM from rfl, show markerClose = ['】'] from rfl]
  simp [List.append_assoc]

theorem encodeCE_eq_chainText (ces : List ChoiceExplanation) :
    encodeChoiceExplanations ces =
      chainText (ces.map (fun ce => (intDigits ce.choiceNumber, ceBody ce))) := by
  unfold encodeChoiceExplanations chainText
  rw [List.map_map]
  rw [show str "\n\n" = ['\n', '\n'] from rfl]
  refine congrArg _ (List.map_congr_left ?_)
  intro ce _
  exact ceSection_eq ce

theorem chainPieces_shape :
    ∀ (ces : List ChoiceExplanation) {s : Str},
      s ∈ chainPieces (ces.map (fun ce => (intDigits ce.choiceNumber, ceBody ce))) →
      ∃ ce ∈ ces, ∃ w : Str, (∀ c ∈ w, wsChar c = true) ∧ s = ceBody ce ++ w := by
  intro ces
  induction ces with
  | nil => intro s hs; simp [chainPieces] at hs
  | cons ce rest ih =>
    intro s hs
    cases rest with
    | nil =>
      simp only [List.map_cons, List.map_nil, chainPieces, List.mem_singleton] at hs
      exact ⟨ce, List.mem_cons_self ce [], [], by simp, by rw [hs]; simp⟩
    | cons ce2 rest2 =>
      simp only [List.map_cons, chainPieces, List.mem_cons] at hs
      rcases hs with h1 | h2
      · exact ⟨ce, List.mem_cons_self _ _, ['\n', '\n'], by decide, h1⟩
      · obtain ⟨ce3, hmem, w, hw, hform⟩ := ih (by simpa using h2)
        exact ⟨ce3, List.mem_cons_of_mem ce hmem, w, hw, hform⟩

theorem filterMap_parseSection_chain (choices : List Str) :
    ∀ (ces : List ChoiceExplanation), (∀ ce ∈ ces, CEClean choices ce) →
      (chainPieces (ces.map (fun ce => (intDigits ce.choiceNumber, ceBody ce)))).filterMap
        (parseSection choices) = ces := by
  intro ces
  induction ces with
  | nil => intro _; simp [chainPieces]
  | cons ce rest ih =>
    intro hclean
    obtain ⟨hn, hts, hne, hnl, hmf, hets, hemf, hfind⟩ := hclean ce (List.mem_cons_self ce rest)
    have hnum : ((ce.choiceNumber.toNat - 1 : Nat) : Int) + 1 = ce.choiceNumber := by
      have := Int.toNat_of_nonneg (le_trans (by omega) hn)
      omega
    have hparse : ∀ w : Str, (∀ c ∈ w, wsChar c = true) →
        parseSection choices (ceBody ce ++ w) = some ce := by
      intro w hw
      rw [parseSection_piece hw hts hne hnl hets hfind, hnum]
    cases rest with
    | nil =>
      simp only [List.map_cons, List.map_nil, chainPieces, List.filterMap_cons]
      rw [show ceBody ce = ceBody ce ++ [] by simp] at hparse
      have := hparse [] (by simp)
      simp only [List.append_nil] at this
      rw [this]
      rfl
    | cons ce2 rest2 =>
      simp only [List.map_cons, chainPieces, List.filterMap_cons]
      rw [hparse ['\n', '\n'] (by decide)]
      have := ih (fun x hx => hclean x (List.mem_cons_of_mem ce hx))
      simp only [List.map_cons] at this
      rw [show chainPieces ((intDigits ce2.choiceNumber, ceBody ce2) ::
        rest2.map (fun ce => (intDigits ce.choiceNumber, ceBody ce))) =
        chainPieces ((ce2 :: rest2).map (fun ce => (intDigits ce.choiceNumber, ceBody ce)))
        by simp]
      rw [ih (fun x hx => hclean x (List.mem_cons_of_mem ce hx))]

theorem parsedExplanations_encode {choices : List Str} {ces : List ChoiceExplanation}
    (hne : ces ≠ []) (hclean : ∀ ce ∈ ces, CEClean choices ce) :
    parsedExplanations (encodeChoiceExplanations ces) choices = ces := by
  unfold parsedExplanations
  rw [encodeCE_eq_chainText]
  rw [splitMarker_chain (by simpa using hne) ?hp]
  case hp =>
    intro p hp
    obtain ⟨ce, hcemem, hpe⟩ := List.mem_map.mp hp
    obtain ⟨hn, hts, hcne, hnl, hmf, hets, hemf, hfind⟩ := hclean ce hcemem
    refine ⟨?_, ?_, ?_⟩
    · rw [← hpe, intDigits_pos hn]
      exact decDigits_ne_nil _
    · rw [← hpe, intDigits_pos hn]
      exact fun c hc => decDigits_digits c hc
    · rw [← hpe]
      exact markerFree_ceBody hmf hemf
  rw [List.filter_cons]
  rw [if_neg (by simp [jsTrim, trimL, trimR])]
  have hkeep : ∀ s ∈ chainPieces (ces.map (fun ce => (intDigits ce.choiceNumber, ceBody ce))),
      (!(jsTrim s).isEmpty) = true := by
    intro s hs
    obtain ⟨ce, hcemem, w, hw, hform⟩ := chainPieces_shape ces hs
    obtain ⟨hn, hts, hcne, hnl, hmf, hets, hemf, hfind⟩ := hclean ce hcemem
    have hg_ne : (if ce.isCorrect then glyphOk else glyphNg) ≠ [] := by split <;> decide
    have hg_h : ∀ c, (if ce.isCorrect then glyphOk else glyphNg).head? = some c →
        wsChar c = false := by
      split
      · intro c hc
        have h1 : some '✓' = some c := hc
        cases h1; decide
      · intro c hc
        have h1 : some '✗' = some c := hc
        cases h1; decide
    rw [hform]
    rw [show ceBody ce ++ w =
      ((if ce.isCorrect then glyphOk else glyphNg) ++
        '\n' :: (ce.choiceText ++ '\n' :: ce.explanation)) ++ w from rfl]
    rw [jsTrim_ceBody hg_ne hg_h hts hcne hets hw]
    simp [hg_ne]
  rw [List.filter_eq_self.mpr hkeep]
  exact filterMap_parseSection_chain choices ces hclean

theorem parseChoiceExplanations_encode {choices : List Str} {ces : List ChoiceExplanation}
    {ca : Int}
    (hne : ces ≠ []) (hclean : ∀ ce ∈ ces, CEClean choices ce)
    (hnums : ces.map (·.choiceNumber) =
      (List.range choices.length).map (fun (i : Nat) => (i : Int) + 1)) :
    parseChoiceExplanations (encodeChoiceExplanations ces) choices ca = ces := by
  simp only [parseChoiceExplanations]
  rw [parsedExplanations_encode hne hclean]
  rw [if_neg hne]
  have hmem : ∀ i < choices.length, ((i : Int) + 1) ∈ ces.map (·.choiceNumber) := by
    intro i hi
    rw [hnums]
    exact List.mem_map.mpr ⟨i, List.mem_range.mpr hi, rfl⟩
  have hfmap : (List.range choices.length).filterMap (fun (i : Nat) =>
      if ((i : Int) + 1) ∈ ces.map (·.choiceNumber) then none
      else some (⟨(i : Int) + 1, (choices.get? i).getD [], false, []⟩ : ChoiceExplanation)) =
      [] := by
    refine List.filterMap_eq_nil_iff.mpr ?_
    intro i hi
    rw [if_pos (hmem i (List.mem_range.mp hi))]
  rw [hfmap, List.append_nil]
  have hpair : List.Pairwise (fun a b : ChoiceExplanation =>
      a.choiceNumber ≤ b.choiceNumber) ces := by
    have h1 : List.Pairwise (· < ·) (List.range choices.length) :=
      List.pairwise_lt_range choices.length
    have h2 : List.Pairwise (· ≤ ·) (ces.map (·.choiceNumber)) := by
      rw [hnums]
      exact h1.map _ (fun a b hab => by omega)
    rw [List.pairwise_map] at h2
    exact h2
  exact List.Sorted.insertionSort_eq hpair

theorem digit_ne_newline {c : Char} (h : Char.isDigit c = true) : c ≠ '\n' := by
  intro heq
  rw [heq] at h
  exact absurd h (by decide)

theorem newline_not_mem_choiceLine {i : Nat} {c : Str} (hc : '\n' ∉ c) :
    '\n' ∉ choiceLine i c := by
  intro hmem
  unfold choiceLine at hmem
  rcases List.mem_append.mp hmem with h1 | h2
  · exact absurd rfl (digit_ne_newline (decDigits_digits '\n' h1))
  · simp only [List.mem_cons] at h2
    rcases h2 with h3 | h3 | h3
    · exact absurd h3 (by decide)
    · exact absurd h3 (by decide)
    · exact hc h3

theorem stripNumPrefixMarker_line {n : Nat} {c : Str} (hts : trimL c = c) :
    stripNumPrefixMarker (decDigits n ++ '.' :: ' ' :: c) = c := by
  unfold stripNumPrefixMarker
  have htw : (decDigits n ++ '.' :: ' ' :: c).takeWhile Char.isDigit = decDigits n :=
    takeWhile_all_append (decDigits n) (' ' :: c) (fun x hx => decDigits_digits x hx) (by decide)
  rw [htw]
  rw [if_neg (by simp [List.isEmpty_iff, decDigits_ne_nil n])]
  have hdr : (decDigits n ++ '.' :: ' ' :: c).drop (decDigits n).length = '.' :: ' ' :: c :=
    List.drop_left _ _
  rw [hdr]
  have hp : seqPrefixOf ['.'] ('.' :: ' ' :: c) = true := seqPrefixOf_append ['.'] (' ' :: c)
  rw [if_pos hp]
  show (' ' :: c).dropWhile wsChar = c
  rw [List.dropWhile_cons]
  rw [if_pos (by rfl)]
  exact hts

theorem mapIdxFrom_ne_nil {f : Nat → α → β} {l : List α} (h : l ≠ []) (i : Nat) :
    mapIdxFrom f i l ≠ [] := by
  cases l with
  | nil => exact absurd rfl h
  | cons a l2 => simp [mapIdxFrom]

theorem mapIdxFrom_mem {f : Nat → α → β} :
    ∀ {l : List α} {i : Nat} {b : β}, b ∈ mapIdxFrom f i l → ∃ j a, a ∈ l ∧ b = f j a := by
  intro l
  induction l with
  | nil => intro i b hb; simp [mapIdxFrom] at hb
  | cons a l2 ih =>
    intro i b hb
    simp only [mapIdxFrom, List.mem_cons] at hb
    rcases hb with h1 | h2
    · exact ⟨i, a, List.mem_cons_self a l2, h1⟩
    · obtain ⟨j, x, hx, hf⟩ := ih h2
      exact ⟨j, x, List.mem_cons_of_mem a hx, hf⟩

theorem mapStrip_mapIdxFrom :
    ∀ (cs : List Str) (i : Nat), (∀ c ∈ cs, c ≠ [] ∧ TrimStable c) →
      ((mapIdxFrom choiceLine i cs).map (fun l => jsTrim (stripNumPrefixMarker l))).filter
        (fun c => !c.isEmpty) = cs := by
  intro cs
  induction cs with
  | nil => intro i _; rfl
  | cons c cs2 ih =>
    intro i hcond
    obtain ⟨hne, hts⟩ := hcond c (List.mem_cons_self c cs2)
    simp only [mapIdxFrom, List.map_cons, List.filter_cons]
    have hstrip : jsTrim (stripNumPrefixMarker (choiceLine i c)) = c := by
      unfold choiceLine
      rw [stripNumPrefixMarker_line hts.1, jsTrim_eq_self hts.1 hts.2]
    rw [hstrip]
    rw [if_pos (by simp [List.isEmpty_iff, hne])]
    rw [ih (i + 1) (fun x hx => hcond x (List.mem_cons_of_mem c hx))]

theorem decodeChoicesText_encode {choices : List Str}
    (hne : choices ≠ [])
    (hc : ∀ c ∈ choices, c ≠ [] ∧ TrimStable c ∧ '\n' ∉ c) :
    decodeChoicesText (encodeChoices choices) = choices := by
  unfold decodeChoicesText encodeChoices
  have hsplit : jsSplit ['\n'] (joinSep ['\n'] (mapIdxFrom choiceLine 0 choices)) =
      mapIdxFrom choiceLine 0 choices := by
    refine jsSplit_joinSep (by simp) _ (mapIdxFrom_ne_nil hne 0) ?_
    intro p hp
    obtain ⟨j, a, ha, hf⟩ := mapIdxFrom_mem hp
    rw [hf]
    exact bfree_of_not_mem (newline_not_mem_choiceLine (hc a ha).2.2)
  rw [hsplit]
  exact mapStrip_mapIdxFrom choices 0 (fun c hcm => ⟨(hc c hcm).1, (hc c hcm).2.1⟩)

theorem map_eq_self_of_fixed {f : α → α} {l : List α} (h : ∀ a ∈ l, f a = a) :
    l.map f = l := by
  induction l with
  | nil => rfl
  | cons a t ih =>
    simp only [List.map_cons, h a (List.mem_cons_self a t),
      ih (fun x hx => h x (List.mem_cons_of_mem a hx))]

theorem decodeLearningPoints_encode {lps : List Str}
    (hlp : ∀ p ∈ lps, p ≠ [] ∧ TrimStable p ∧ strIncludes p nlBullet = false) :
    decodeLearningPoints (joinSep nlBullet lps) = lps := by
  unfold decodeLearningPoints
  cases lps with
  | nil => rfl
  | cons p rest =>
    rw [jsSplit_joinSep (by decide) _ (by simp)
      (fun q hq => bfree_nlBullet (hlp q hq).2.2)]
    have hmap : (p :: rest).map jsTrim = p :: rest :=
      map_eq_self_of_fixed
        (fun a ha => jsTrim_eq_self ((hlp a ha).2.1).1 ((hlp a ha).2.1).2)
    rw [hmap]
    refine List.filter_eq_self.mpr ?_
    intro a ha
    simp [List.isEmpty_iff, (hlp a ha).1]

theorem pillar_fixed : ∀ p ∈ pillarSlugs, normalizeFallback p = p := by decide

/-- Collapse of an optional field through the encoder's presence test and the
decoder's falsy coalescing: empty text is lost, anything else survives. -/
def optNorm : Option Str → Option Str
  | some s => if s = [] then none else some s
  | none => none

theorem optContent_encodeOpt (o : Option Str) :
    optContent (match o with
      | some s => if s = [] then [] else [s]
      | none => []) = optNorm o := by
  cases o with
  | none => rfl
  | some s =>
    by_cases hs : s = []
    · simp [hs, optContent, optNorm]
    · simp [hs, optContent, optNorm]

/-- Validity of a note, as the data model states it: non-empty question text,
2 to 8 choices, in-range correct answer, one choice-explanation entry per
choice numbered 1..len in order, correctness flags matching the correct
answer, and canonical pillar slugs. -/
def ValidNote (n : ExamQuestionNote) : Prop :=
  n.questionText ≠ [] ∧
  2 ≤ n.choices.length ∧ n.choices.length ≤ 8 ∧
  1 ≤ n.correctAnswer ∧ n.correctAnswer ≤ (n.choices.length : Int) ∧
  n.choiceExplanations.map (·.choiceNumber) =
    (List.range n.choices.length).map (fun (i : Nat) => (i : Int) + 1) ∧
  (∀ ce ∈ n.choiceExplanations, ce.isCorrect = true ↔ ce.choiceNumber = n.correctAnswer) ∧
  (∀ p ∈ n.wellArchitectedCategories, p ∈ pillarSlugs)

/-- The extra tidiness conditions under which the wire format is injective:
choice texts non-empty, whitespace-trimmed, free of newlines and marker
occurrences; the includes-based matching resolves every choice to its own
index; each explanation entry carries its own choice's text; explanation
texts trimmed and marker-free; learning points non-empty, trimmed, free of
the bullet separator. -/
def CleanNote (n : ExamQuestionNote) : Prop :=
  (∀ c ∈ n.choices, c ≠ [] ∧ TrimStable c ∧ '\n' ∉ c ∧ markerFreeB c = true) ∧
  (∀ k < n.choices.length,
    jsFindIndex (matchChoicePred ((n.choices.get? k).getD [])) n.choices = some k) ∧
  (∀ k < n.choiceExplanations.length,
    ((n.choiceExplanations.get? k).getD default).choiceText = (n.choices.get? k).getD []) ∧
  (∀ ce ∈ n.choiceExplanations, TrimStable ce.explanation ∧ markerFreeB ce.explanation = true) ∧
  (∀ p ∈ n.learningPoints, p ≠ [] ∧ TrimStable p ∧ strIncludes p nlBullet = false)

instance (s : Str) : Decidable (TrimStable s) := by
  unfold TrimStable; exact inferInstance

instance (n : ExamQuestionNote) : Decidable (ValidNote n) := by
  unfold ValidNote; exact inferInstance

instance (n : ExamQuestionNote) : Decidable (CleanNote n) := by
  unfold CleanNote; exact inferInstance

theorem ceClean_of_valid {n : ExamQuestionNote} (hv : ValidNote n) (hc : CleanNote n) :
    ∀ ce ∈ n.choiceExplanations, CEClean n.choices ce := by
  intro ce hce
  obtain ⟨hqt, hlen2, hlen8, hca1, hca2, hnums, hcorr, hwac⟩ := hv
  obtain ⟨hch, hfind, hcet, hex, hlp⟩ := hc
  have hleneq : n.choiceExplanations.length = n.choices.length := by
    have := congrArg List.length hnums
    simpa using this
  obtain ⟨⟨k, hk⟩, hget⟩ := List.mem_iff_get.mp hce
  have hget? : n.choiceExplanations.get? k = some ce := by
    rw [List.get?_eq_get hk, hget]
  have hnum : ce.choiceNumber = (k : Int) + 1 := by
    have h1 : (n.choiceExplanations.map (·.choiceNumber)).get? k = some ce.choiceNumber := by
      rw [List.get?_map, hget?]
      rfl
    rw [hnums] at h1
    have h2 : ((List.range n.choices.length).map (fun (i : Nat) => (i : Int) + 1)).get? k =
        some ((k : Int) + 1) := by
      rw [List.get?_map, List.get?_range (by omega)]
      rfl
    rw [h2] at h1
    simpa using h1.symm
  have hkl : k < n.choices.length := by omega
  have hct : ce.choiceText = (n.choices.get? k).getD [] := by
    have h1 := hcet k hk
    rw [hget?] at h1
    exact h1
  have hcmem : (n.choices.get? k).getD [] ∈ n.choices := by
    rw [List.get?_eq_get hkl]
    exact List.get_mem n.choices k hkl
  obtain ⟨hcne, hcts, hcnl, hcmf⟩ := hch _ hcmem
  have htonat : ce.choiceNumber.toNat - 1 = k := by
    rw [hnum]
    omega
  refine ⟨by rw [hnum]; omega, ?_, ?_, ?_, ?_, (hex ce hce).1,
    markerFree_of_B (hex ce hce).2, ?_⟩
  · rw [hct]; exact hcts
  · rw [hct]; exact hcne
  · rw [hct]; exact hcnl
  · rw [hct]; exact markerFree_of_B hcmf
  · rw [htonat, hct]
    exact hfind k hkl

/-- The round trip of the property codec on valid, clean notes: decoding the
encoded record gives back the note, with empty optional fields collapsing to
absent ones. -/
theorem parse_build_roundTrip {n : ExamQuestionNote} (hv : ValidNote n) (hc : CleanNote n) :
    parseNotionPage (buildProperties n) =
      some { n with
        architectureDiagram := optNorm n.architectureDiagram
        similarQuestionsHint := optNorm n.similarQuestionsHint } := by
  obtain ⟨hqt, hlen2, hlen8, hca1, hca2, hnums, hcorr, hwac⟩ := hv
  obtain ⟨hch, hfind, hcet, hex, hlp⟩ := hc
  have hchoices : decodeChoicesText (encodeChoices n.choices) = n.choices :=
    decodeChoicesText_encode (by intro h0; rw [h0] at hlen2; simp at hlen2)
      (fun c hcm => ⟨(hch c hcm).1, (hch c hcm).2.1, (hch c hcm).2.2.1⟩)
  have hcesne : n.choiceExplanations ≠ [] := by
    intro h0
    rw [h0] at hnums
    have := congrArg List.length hnums
    simp at this
    omega
  have hces : parseChoiceExplanations (encodeChoiceExplanations n.choiceExplanations)
      n.choices n.correctAnswer = n.choiceExplanations :=
    parseChoiceExplanations_encode hcesne
      (ceClean_of_valid
        ⟨hqt, hlen2, hlen8, hca1, hca2, hnums, hcorr, hwac⟩
        ⟨hch, hfind, hcet, hex, hlp⟩) hnums
  have hwacfix : n.wellArchitectedCategories.map normalizeFallback =
      n.wellArchitectedCategories :=
    map_eq_self_of_fixed (fun p hp => pillar_fixed p (hwac p hp))
  have hlps : decodeLearningPoints (joinSep nlBullet n.learningPoints) = n.learningPoints :=
    decodeLearningPoints_encode hlp
  simp only [parseNotionPage, buildProperties, headContent, List.head?_cons, Option.getD_some]
  rw [if_neg hqt, hchoices]
  rw [if_neg (by intro h0; rw [h0] at hlen2; simp at hlen2)]
  rw [if_neg (by push_neg; omega)]
  rw [hces, hwacfix, hlps]
  rw [optContent_encodeOpt, optContent_encodeOpt]

theorem jsFindIndex_lt_length {p : α → Bool} :
    ∀ {l : List α} {k : Nat}, jsFindIndex p l = some k → k < l.length := by
  intro l
  induction l with
  | nil => intro k h; simp [jsFindIndex] at h
  | cons a t ih =>
    intro k h
    simp only [jsFindIndex] at h
    split at h
    · simp only [Option.some.injEq] at h
      subst h
      simp
    · cases hk : jsFindIndex p t with
      | none => rw [hk] at h; simp at h
      | some j =>
        rw [hk] at h
        simp at h
        have := ih hk
        simp only [List.length_cons]
        omega

theorem map_mapIdxFrom {f : Nat → α → β} {g : β → γ} :
    ∀ (l : List α) (i : Nat),
      (mapIdxFrom f i l).map g = mapIdxFrom (fun j a => g (f j a)) i l := by
  intro l
  induction l with
  | nil => intro i; rfl
  | cons a t ih => intro i; simp only [mapIdxFrom, List.map_cons, ih]

theorem length_mapIdxFrom {f : Nat → α → β} :
    ∀ (l : List α) (i : Nat), (mapIdxFrom f i l).length = l.length := by
  intro l
  induction l with
  | nil => intro i; rfl
  | cons a t ih => intro i; simp only [mapIdxFrom, List.length_cons, ih]

theorem mapIdxFrom_const_eq_range :
    ∀ (l : List α) (i : Nat) (h : Nat → β),
      mapIdxFrom (fun j _ => h j) i l = (List.range l.length).map (fun j => h (i + j)) := by
  intro l
  induction l with
  | nil => intro i h; rfl
  | cons a t ih =>
    intro i h
    simp only [mapIdxFrom, List.length_cons, List.range_succ_eq_map, List.map_cons,
      List.map_map, Nat.add_zero]
    rw [ih (i + 1) h]
    refine congrArg _ ?_
    refine List.map_congr_left ?_
    intro j _
    show h (i + 1 + j) = h (i + Nat.succ j)
    exact congrArg h (by omega)

theorem fallback_map_num (choices : List Str) (ca : Int) :
    (fallbackExplanations choices ca).map (·.choiceNumber) =
      (List.range choices.length).map (fun (i : Nat) => (i : Int) + 1) := by
  unfold fallbackExplanations
  rw [map_mapIdxFrom]
  rw [mapIdxFrom_const_eq_range choices 0 (fun j => (j : Int) + 1)]
  simp

theorem fallback_length (choices : List Str) (ca : Int) :
    (fallbackExplanations choices ca).length = choices.length :=
  length_mapIdxFrom choices 0

theorem parsed_num_bounds {text : Str} {choices : List Str} :
    ∀ ce ∈ parsedExplanations text choices,
      1 ≤ ce.choiceNumber ∧ ce.choiceNumber ≤ (choices.length : Int) := by
  intro ce hce
  unfold parsedExplanations at hce
  obtain ⟨sec, _, hps⟩ := List.mem_filterMap.mp hce
  unfold parseSection at hps
  simp only at hps
  split at hps
  · exact absurd hps (by simp)
  · cases hfi : jsFindIndex (matchChoicePred
        (jsTrim ((jsSplit ['\n'] (jsTrim sec))[1]?.getD []))) choices with
    | none => rw [hfi] at hps; exact absurd hps (by simp)
    | some k =>
      rw [hfi] at hps
      simp only [Option.some.injEq] at hps
      have hk := jsFindIndex_lt_length hfi
      rw [← hps]
      refine ⟨?_, ?_⟩
      · show (1 : Int) ≤ (k : Int) + 1
        omega
      · show ((k : Int) + 1) ≤ (choices.length : Int)
        omega

theorem sorted_num_pairwise {l : List ChoiceExplanation} {m : Int}
    (h : l.map (·.choiceNumber) = (List.range m.toNat).map (fun (i : Nat) => (i : Int) + 1)) :
    List.Pairwise ceLE l := by
  have h1 : List.Pairwise (· < ·) (List.range m.toNat) := List.pairwise_lt_range m.toNat
  have h2 : List.Pairwise (· ≤ ·) (l.map (·.choiceNumber)) := by
    rw [h]
    exact h1.map _ (fun a b hab => by omega)
  rw [List.pairwise_map] at h2
  exact h2

/-- Structural facts about the decoded choice-explanations list for an
arbitrary stored block: the set of choice numbers is exactly 1..len(choices),
the list is sorted by choice number, and its length is at least the number of
choices (repeats are possible when distinct sections match the same choice). -/
theorem parseChoiceExplanations_invariant (text : Str) (choices : List Str) (ca : Int) :
    (∀ k : Int, k ∈ (parseChoiceExplanations text choices ca).map (·.choiceNumber) ↔
      1 ≤ k ∧ k ≤ (choices.length : Int)) ∧
    List.Pairwise ceLE (parseChoiceExplanations text choices ca) ∧
    choices.length ≤ (parseChoiceExplanations text choices ca).length := by
  simp only [parseChoiceExplanations]
  split
  case isTrue hp =>
    refine ⟨?_, ?_, ?_⟩
    · intro k
      rw [fallback_map_num]
      constructor
      · intro hk
        obtain ⟨i, hi, hik⟩ := List.mem_map.mp hk
        rw [List.mem_range] at hi
        omega
      · intro ⟨h1, h2⟩
        refine List.mem_map.mpr ⟨(k - 1).toNat, List.mem_range.mpr (by omega), by omega⟩
    · refine sorted_num_pairwise (m := (choices.length : Int)) ?_
      rw [fallback_map_num]
      simp
    · rw [fallback_length]
  case isFalse hp =>
    set parsed := parsedExplanations text choices with hpdef
    set backfilled := parsed ++
      (List.range choices.length).filterMap (fun (i : Nat) =>
        if ((i : Int) + 1) ∈ parsed.map (·.choiceNumber) then none
        else some ⟨(i : Int) + 1, (choices.get? i).getD [], false, []⟩) with hbdef
    have hperm : List.Perm (List.insertionSort ceLE backfilled) backfilled :=
      List.perm_insertionSort ceLE backfilled
    have hmemiff : ∀ k : Int, k ∈ backfilled.map (·.choiceNumber) ↔
        1 ≤ k ∧ k ≤ (choices.length : Int) := by
      intro k
      constructor
      · intro hk
        obtain ⟨ce, hce, hknum⟩ := List.mem_map.mp hk
        rw [hbdef] at hce
        rcases List.mem_append.mp hce with h1 | h2
        · have := parsed_num_bounds ce h1
          omega
        · obtain ⟨i, hi, hfi⟩ := List.mem_filterMap.mp h2
          rw [List.mem_range] at hi
          split at hfi
          · exact absurd hfi (by simp)
          · simp only [Option.some.injEq] at hfi
            rw [← hfi] at hknum
            simp only [] at hknum
            omega
      · intro ⟨h1, h2⟩
        by_cases hink : k ∈ parsed.map (·.choiceNumber)
        · obtain ⟨ce, hce, hknum⟩ := List.mem_map.mp hink
          refine List.mem_map.mpr ⟨ce, ?_, hknum⟩
          rw [hbdef]
          exact List.mem_append.mpr (Or.inl hce)
        · refine List.mem_map.mpr
            ⟨⟨k, (choices.get? (k - 1).toNat).getD [], false, []⟩, ?_, rfl⟩
          rw [hbdef]
          refine List.mem_append.mpr (Or.inr ?_)
          refine List.mem_filterMap.mpr ⟨(k - 1).toNat, List.mem_range.mpr (by omega), ?_⟩
          rw [if_neg (by rw [show ((((k - 1).toNat : Nat) : Int) + 1) = k by omega]; exact hink)]
          rw [show ((((k - 1).toNat : Nat) : Int) + 1) = k by omega]
    have hmapperm : List.Perm ((List.insertionSort ceLE backfilled).map (·.choiceNumber))
        (backfilled.map (·.choiceNumber)) := hperm.map _
    refine ⟨?_, ?_, ?_⟩
    · intro k
      rw [hmapperm.mem_iff]
      exact hmemiff k
    · exact List.sorted_insertionSort ceLE backfilled
    · have hsub : ((List.range choices.length).map (fun (i : Nat) => (i : Int) + 1)).toFinset ⊆
          (backfilled.map (·.choiceNumber)).toFinset := by
        intro k hk
        rw [List.mem_toFinset] at hk ⊢
        obtain ⟨i, hi, hik⟩ := List.mem_map.mp hk
        rw [List.mem_range] at hi
        refine (hmemiff k).mpr ?_
        omega
      have hnodup : ((List.range choices.length).map (fun (i : Nat) => (i : Int) + 1)).Nodup :=
        (List.nodup_range _).map (fun a b hab => by omega)
      have hcard1 : ((List.range choices.length).map (fun (i : Nat) => (i : Int) + 1)).toFinset.card =
          choices.length := by
        rw [List.toFinset_card_of_nodup hnodup]
        simp
      have hcard2 := Finset.card_le_card hsub
      have hcard3 := List.toFinset_card_le (backfilled.map (·.choiceNumber))
      rw [hcard1] at hcard2
      have hlen : (backfilled.map (·.choiceNumber)).length = backfilled.length :=
        List.length_map _ _
      rw [hperm.length_eq]
      omega

theorem char_toNat_ofNat {n : Nat} (h : n < 55296) : (Char.ofNat n).toNat = n := by
  rw [Char.ofNat, dif_pos (Or.inl h)]
  rfl

theorem char_ne_of_toNat_ne {a b : Char} (h : a.toNat ≠ b.toNat) : a ≠ b :=
  fun heq => h (congrArg Char.toNat heq)

theorem jsToLower_toNat (c : Char) :
    (jsToLower c).toNat =
      if c.toNat ≥ 65 ∧ c.toNat ≤ 90 then c.toNat + 32 else c.toNat := by
  unfold jsToLower
  split
  case isTrue h => exact char_toNat_ofNat (by omega)
  case isFalse h => rfl

theorem jsToLower_not_upper (c : Char) :
    ¬(65 ≤ (jsToLower c).toNat ∧ (jsToLower c).toNat ≤ 90) := by
  rw [jsToLower_toNat]
  split <;> omega

theorem jsToLower_idem (c : Char) : jsToLower (jsToLower c) = jsToLower c := by
  have h := jsToLower_not_upper c
  set x := jsToLower c with hx
  unfold jsToLower
  rw [if_neg h]

theorem wsChar_eq_false_of_toNat {c : Char} (h1 : c.toNat ≠ 32) (h2 : c.toNat ≠ 9)
    (h3 : c.toNat ≠ 10) (h4 : c.toNat ≠ 13) (h5 : c.toNat ≠ 11) (h6 : c.toNat ≠ 12) :
    wsChar c = false := by
  unfold wsChar
  simp only [Bool.or_eq_false_iff, decide_eq_false_iff_not]
  refine ⟨⟨⟨⟨⟨?_, ?_⟩, ?_⟩, ?_⟩, ?_⟩, ?_⟩
  · exact char_ne_of_toNat_ne (by rw [show (' ').toNat = 32 from rfl]; exact h1)
  · exact char_ne_of_toNat_ne (by rw [show ('\t').toNat = 9 from rfl]; exact h2)
  · exact char_ne_of_toNat_ne (by rw [show ('\n').toNat = 10 from rfl]; exact h3)
  · exact char_ne_of_toNat_ne (by rw [show ('\r').toNat = 13 from rfl]; exact h4)
  · exact char_ne_of_toNat_ne (by rw [show ('\x0b').toNat = 11 from rfl]; exact h5)
  · exact char_ne_of_toNat_ne (by rw [show ('\x0c').toNat = 12 from rfl]; exact h6)

theorem wsChar_jsToLower (c : Char) : wsChar (jsToLower c) = wsChar c := by
  by_cases h : c.toNat ≥ 65 ∧ c.toNat ≤ 90
  · have ht : (jsToLower c).toNat = c.toNat + 32 := by rw [jsToLower_toNat, if_pos h]
    rw [wsChar_eq_false_of_toNat (by omega) (by omega) (by omega) (by omega)
      (by omega) (by omega)]
    rw [wsChar_eq_false_of_toNat (by omega) (by omega) (by omega) (by omega)
      (by omega) (by omega)]
  · unfold jsToLower
    rw [if_neg h]

theorem mem_hyphenateWsAux {c : Char} :
    ∀ {b : Bool} {s : Str}, c ∈ hyphenateWsAux b s → c = '-' ∨ c ∈ s := by
  intro b s
  induction s generalizing b with
  | nil => intro h; simp [hyphenateWsAux] at h
  | cons a t ih =>
    intro h
    simp only [hyphenateWsAux] at h
    split at h
    · rcases List.mem_append.mp h with h1 | h2
      · split at h1
        · simp at h1
        · simp only [List.mem_singleton] at h1
          exact Or.inl h1
      · rcases ih h2 with h3 | h3
        · exact Or.inl h3
        · exact Or.inr (List.mem_cons_of_mem a h3)
    · rcases List.mem_cons.mp h with h1 | h2
      · exact Or.inr (h1 ▸ List.mem_cons_self a t)
      · rcases ih h2 with h3 | h3
        · exact Or.inl h3
        · exact Or.inr (List.mem_cons_of_mem a h3)

theorem no_ws_hyphenateWsAux {c : Char} :
    ∀ {b : Bool} {s : Str}, c ∈ hyphenateWsAux b s → wsChar c = false := by
  intro b s
  induction s generalizing b with
  | nil => intro h; simp [hyphenateWsAux] at h
  | cons a t ih =>
    intro h
    simp only [hyphenateWsAux] at h
    split at h
    · rcases List.mem_append.mp h with h1 | h2
      · split at h1
        · simp at h1
        · simp only [List.mem_singleton] at h1
          subst h1
          rfl
      · exact ih h2
    case isFalse ha =>
      rcases List.mem_cons.mp h with h1 | h2
      · subst h1
        rw [Bool.not_eq_true] at ha
        exact ha
      · exact ih h2

theorem hyphenateWsAux_no_ws_input {b : Bool} :
    ∀ {s : Str}, (∀ c ∈ s, wsChar c = false) → hyphenateWsAux b s = s := by
  intro s
  induction s generalizing b with
  | nil => intro _; rfl
  | cons a t ih =>
    intro h
    simp only [hyphenateWsAux, h a (List.mem_cons_self a t)]
    simp only [Bool.false_eq_true, if_false]
    rw [ih (fun c hc => h c (List.mem_cons_of_mem a hc))]

theorem normalizeFallback_idem (s : Str) :
    normalizeFallback (normalizeFallback s) = normalizeFallback s := by
  unfold normalizeFallback
  have hmapfix : (hyphenateWs ((s.map jsToLower))).map jsToLower =
      hyphenateWs (s.map jsToLower) := by
    refine map_eq_self_of_fixed ?_
    intro c hc
    rcases mem_hyphenateWsAux hc with h1 | h2
    · rw [h1]; rfl
    · obtain ⟨d, _, hd⟩ := List.mem_map.mp h2
      rw [← hd]
      exact jsToLower_idem d
  rw [hmapfix]
  exact hyphenateWsAux_no_ws_input (fun c hc => no_ws_hyphenateWsAux hc)

theorem normalizeFallback_no_ws {s : Str} : ∀ c ∈ normalizeFallback s, wsChar c = false :=
  fun _ hc => no_ws_hyphenateWsAux hc

theorem normalizeFallback_not_upper {s : Str} :
    ∀ c ∈ normalizeFallback s, ¬(65 ≤ c.toNat ∧ c.toNat ≤ 90) := by
  intro c hc
  rcases mem_hyphenateWsAux hc with h1 | h2
  · rw [h1]
    show ¬(65 ≤ 45 ∧ (45 : Nat) ≤ 90)
    omega
  · obtain ⟨d, _, hd⟩ := List.mem_map.mp h2
    rw [← hd]
    exact jsToLower_not_upper d

theorem lookupMapping_mem {s v : Str} (hl : lookupMapping s = some v) :
    v ∈ pillarMapping.map (·.2) := by
  unfold lookupMapping at hl
  cases hf : pillarMapping.find? (fun p => p.1 == s) with
  | none => rw [hf] at hl; simp at hl
  | some pr =>
    rw [hf] at hl
    have hl3 : pr.2 = v := by simpa using hl
    exact List.mem_map.mpr ⟨pr, List.mem_of_find?_eq_some hf, hl3⟩

theorem slug_cell_fixed :
    ∀ v ∈ pillarMapping.map (·.2), normalizeCell (JsValue.strv v) = JsValue.strv v := by
  decide

theorem key_space_not_fallback {s k : Str} (hsp : ' ' ∈ k)
    (heq : k = normalizeFallback s) : False := by
  have h1 : (' ' : Char) ∈ normalizeFallback s := heq ▸ hsp
  have h2 := normalizeFallback_no_ws ' ' h1
  exact absurd h2 (by decide)

theorem key_upper_not_fallback {s k : Str} {c : Char} (hc : c ∈ k)
    (hU : 65 ≤ c.toNat ∧ c.toNat ≤ 90) (heq : k = normalizeFallback s) : False :=
  normalizeFallback_not_upper c (heq ▸ hc) hU

theorem lookup_fallback_fixed {s v : Str}
    (hl2 : lookupMapping (normalizeFallback s) = some v) : v = normalizeFallback s := by
  unfold lookupMapping at hl2
  cases hf : pillarMapping.find? (fun p => p.1 == normalizeFallback s) with
  | none => rw [hf] at hl2; simp at hl2
  | some pr =>
    rw [hf] at hl2
    have hl3 : pr.2 = v := by simpa using hl2
    have hmem := List.mem_of_find?_eq_some hf
    have hkey : pr.1 = normalizeFallback s := by
      have := List.find?_some hf
      simpa using this
    rw [← hl3]
    simp only [pillarMapping, List.mem_cons, List.not_mem_nil, or_false] at hmem
    rcases hmem with h|h|h|h|h|h|h|h|h|h|h|h <;> subst h
    · exact absurd hkey (fun heq => key_space_not_fallback (by decide) heq)
    · exact absurd hkey (fun heq => key_space_not_fallback (by decide) heq)
    · exact absurd hkey (fun heq => key_space_not_fallback (by decide) heq)
    · exact absurd hkey (fun heq => key_space_not_fallback (by decide) heq)
    · exact absurd (key_upper_not_fallback (List.mem_cons_self 'R' _)
        (by decide) hkey) id
    · exact hkey
    · exact absurd (key_upper_not_fallback (List.mem_cons_self 'S' _)
        (by decide) hkey) id
    · exact hkey
    · exact absurd hkey (fun heq => key_space_not_fallback (by decide) heq)
    · exact absurd hkey (fun heq => key_space_not_fallback (by decide) heq)
    · exact absurd (key_upper_not_fallback (List.mem_cons_self 'S' _)
        (by decide) hkey) id
    · exact hkey

theorem parseNotionPage_some_inv {r : RawPage} {n : ExamQuestionNote}
    (h : parseNotionPage r = some n) :
    n.choices = decodeChoicesText (headContent r.choicesT) ∧
    n.choices ≠ [] ∧
    1 ≤ n.correctAnswer ∧ n.correctAnswer ≤ (n.choices.length : Int) ∧
    r.correctAnswerN = some n.correctAnswer ∧
    n.choiceExplanations =
      parseChoiceExplanations (headContent r.choiceExplanationsT) n.choices
        n.correctAnswer := by
  simp only [parseNotionPage] at h
  split at h
  · exact absurd h (by simp)
  case isFalse h1 =>
    split at h
    · exact absurd h (by simp)
    case isFalse h2 =>
      cases hca : r.correctAnswerN with
      | none => rw [hca] at h; exact absurd h (by simp)
      | some ca =>
        rw [hca] at h
        dsimp only at h
        split at h
        · exact absurd h (by simp)
        case isFalse h3 =>
          rw [Option.some.injEq] at h
          subst h
          push_neg at h3
          refine ⟨rfl, h2, ?_, ?_, rfl, rfl⟩
          · show (1 : Int) ≤ ca
            have := h3.1
            omega
          · show ca ≤ ((decodeChoicesText (headContent r.choicesT)).length : Int)
            exact h3.2

theorem parseNotionPage_none_iff (r : RawPage) :
    parseNotionPage r = none ↔
      headContent r.questionTextT = [] ∨
      decodeChoicesText (headContent r.choicesT) = [] ∨
      r.correctAnswerN = none ∨
      ∃ ca : Int, r.correctAnswerN = some ca ∧
        (ca < 1 ∨ ca > ((decodeChoicesText (headContent r.choicesT)).length : Int)) := by
  simp only [parseNotionPage]
  split
  case isTrue h => simp [h]
  case isFalse h1 =>
    split
    case isTrue h2 => simp [h1, h2]
    case isFalse h2 =>
      cases hca : r.correctAnswerN with
      | none => simp [h1, h2]
      | some ca =>
        dsimp only
        split
        case isTrue h3 =>
          exact iff_of_true rfl (Or.inr (Or.inr (Or.inr ⟨ca, rfl, h3⟩)))
        case isFalse h3 =>
          constructor
          · intro hx
            exact absurd hx (by simp)
          · rintro (hx | hx | hx | ⟨ca2, hca2, hlt⟩)
            · exact absurd hx h1
            · exact absurd hx h2
            · exact absurd hx (by simp)
            · rw [Option.some.injEq] at hca2
              subst hca2
              exact absurd hlt h3

theorem fallback_mem {choices : List Str} {ca : Int} {ce : ChoiceExplanation}
    (h : ce ∈ fallbackExplanations choices ca) :
    ce.explanation = [] ∧ (ce.isCorrect = true ↔ ce.choiceNumber = ca) := by
  unfold fallbackExplanations at h
  obtain ⟨j, a, _, hf⟩ := mapIdxFrom_mem h
  subst hf
  refine ⟨rfl, ?_⟩
  show ((j : Int) + 1 == ca) = true ↔ (j : Int) + 1 = ca
  exact beq_iff_eq

theorem parseChoiceExplanations_fallback {text : Str} {choices : List Str} {ca : Int}
    (h : parsedExplanations text choices = []) :
    parseChoiceExplanations text choices ca = fallbackExplanations choices ca := by
  simp only [parseChoiceExplanations, h]
  simp

theorem getAllQuestionsAux_spec :
    ∀ (f : Nat) (pages : List RawPage) (cursor : Nat),
      pages.length ≤ cursor + f * 100 →
      getAllQuestionsAux f pages cursor = (pages.drop cursor).filterMap parseNotionPage := by
  intro f
  induction f with
  | zero =>
    intro pages cursor h
    simp only [getAllQuestionsAux]
    rw [List.drop_eq_nil_of_le (by omega)]
    simp
  | succ f ih =>
    intro pages cursor h
    simp only [getAllQuestionsAux]
    split
    case isTrue hmore =>
      rw [ih pages (cursor + 100) (by omega)]
      rw [← List.filterMap_append]
      refine congrArg _ ?_
      have hdd : pages.drop (cursor + 100) = (pages.drop cursor).drop 100 := by
        rw [List.drop_drop]
      rw [hdd]
      exact List.take_append_drop 100 (pages.drop cursor)
    case isFalse hmore =>
      rw [List.take_of_length_le (by rw [List.length_drop]; omega)]

theorem getAllQuestions_spec (s : ReadStore) :
    getAllQuestions s = s.pages.filterMap parseNotionPage := by
  unfold getAllQuestions
  rw [getAllQuestionsAux_spec (s.pages.length + 1) s.pages 0 (by omega)]
  simp

/-- Well-formedness of the write-store model: identifiers are distinct and
below the next fresh identifier. -/
def StoreWF (s : WriteStore) : Prop :=
  (s.pages.map (·.1)).Nodup ∧ ∀ i ∈ s.pages.map (·.1), i < s.nextId

theorem strIncludes_take (s : Str) (m : Nat) : strIncludes s (s.take m) = true :=
  strIncludes_iff.mpr ⟨[], s.drop m, by simp⟩

theorem titlePlainText_build (n : ExamQuestionNote) :
    titlePlainText (buildProperties n) = n.questionText := by
  simp [titlePlainText, buildProperties]

theorem titlePlainText_updated (old : RawPage) (n : ExamQuestionNote) :
    titlePlainText (updatedProperties old (buildProperties n)) = n.questionText := by
  simp [titlePlainText, updatedProperties, buildProperties]

theorem filter_replace {pages : List (Nat × RawPage)} {key : Str} {m : Nat} {p upd : RawPage}
    (hnodup : (pages.map (·.1)).Nodup)
    (hfil : pages.filter (fun pr => strIncludes (titlePlainText pr.2) key) = [(m, p)])
    (hupd : strIncludes (titlePlainText upd) key = true) :
    (pages.map (fun pr => if pr.1 = m then (pr.1, upd) else pr)).filter
      (fun pr => strIncludes (titlePlainText pr.2) key) = [(m, upd)] := by
  induction pages with
  | nil => simp at hfil
  | cons pr rest ih =>
    rw [List.filter_cons] at hfil
    simp only [List.map_cons, List.nodup_cons] at hnodup
    split at hfil
    case isTrue hpred =>
      rw [List.cons.injEq] at hfil
      obtain ⟨hpr, hrest⟩ := hfil
      subst hpr
      have hmaprest : rest.map (fun pr => if pr.1 = m then (pr.1, upd) else pr) = rest := by
        refine map_eq_self_of_fixed ?_
        intro q hq
        rw [if_neg ?_]
        intro hq1
        exact hnodup.1 (hq1 ▸ List.mem_map.mpr ⟨q, hq, rfl⟩)
      simp only [List.map_cons, if_pos rfl, hmaprest]
      rw [List.filter_cons, if_pos (by simpa using hupd), hrest]
      simp
    case isFalse hpred =>
      have hmem : (m, p) ∈ rest := by
        have : (m, p) ∈ rest.filter (fun pr => strIncludes (titlePlainText pr.2) key) := by
          rw [hfil]; simp
        exact List.mem_of_mem_filter this
      have hprm : pr.1 ≠ m := by
        intro h1
        exact hnodup.1 (h1 ▸ List.mem_map.mpr ⟨(m, p), hmem, rfl⟩)
      simp only [List.map_cons, if_neg hprm]
      rw [List.filter_cons, if_neg hpred]
      exact ih hnodup.2 hfil

theorem queryContains_nil_of_find_none {s : WriteStore} {key : Str}
    (hq : s.queryFails = false) (hf : findExistingPage s key = none) :
    queryContains s key = [] := by
  unfold findExistingPage at hf
  rw [hq] at hf
  simp only [Bool.false_eq_true, if_false, Option.map_eq_none'] at hf
  exact List.head?_eq_none_iff.mp (by simpa using hf)

theorem find_head {s : WriteStore} {key : Str} {m : Nat}
    (hq : s.queryFails = false) (hf : findExistingPage s key = some m) :
    ∃ p, (queryContains s key).head? = some (m, p) := by
  unfold findExistingPage at hf
  rw [hq] at hf
  simp only [Bool.false_eq_true, if_false] at hf
  cases hh : (queryContains s key).head? with
  | none => rw [hh] at hf; simp at hf
  | some pr =>
    rw [hh] at hf
    simp only [Option.map_some', Option.some.injEq] at hf
    refine ⟨pr.2, ?_⟩
    refine congrArg some ?_
    rw [← hf]

theorem eq_of_fst_eq_of_nodup {l : List (Nat × RawPage)} (h : (l.map (·.1)).Nodup)
    {a b : Nat × RawPage} (ha : a ∈ l) (hb : b ∈ l) (hfst : a.1 = b.1) : a = b := by
  induction l with
  | nil => simp at ha
  | cons x rest ih =>
    simp only [List.map_cons, List.nodup_cons] at h
    rcases List.mem_cons.mp ha with h1 | h1 <;> rcases List.mem_cons.mp hb with h2 | h2
    · rw [h1, h2]
    · subst h1
      exact absurd (List.mem_map.mpr ⟨b, h2, hfst.symm⟩) h.1
    · subst h2
      exact absurd (List.mem_map.mpr ⟨a, h1, hfst⟩) h.1
    · exact ih h.2 h1 h2

theorem map_fst_replace (pages : List (Nat × RawPage)) (m : Nat) (u : Nat × RawPage → RawPage) :
    (pages.map (fun pr => if pr.1 = m then (pr.1, u pr) else pr)).map (·.1) =
      pages.map (·.1) := by
  rw [List.map_map]
  refine List.map_congr_left ?_
  intro pr _
  simp only [Function.comp]
  split <;> rfl

theorem upsert_once {s : WriteStore} (n : ExamQuestionNote)
    (hq : s.queryFails = false) (hwf : StoreWF s)
    (hone : (queryContains s (n.questionText.take 50)).length ≤ 1) :
    (upsertQuestionNote s n).2.queryFails = false ∧
    StoreWF (upsertQuestionNote s n).2 ∧
    ∃ q, queryContains (upsertQuestionNote s n).2 (n.questionText.take 50) =
      [((upsertQuestionNote s n).1, q)] := by
  simp only [upsertQuestionNote]
  cases hf : findExistingPage s (n.questionText.take 50) with
  | some m =>
    obtain ⟨p, hhead⟩ := find_head hq hf
    have hfil : queryContains s (n.questionText.take 50) = [(m, p)] := by
      cases hqc : queryContains s (n.questionText.take 50) with
      | nil => rw [hqc] at hhead; simp at hhead
      | cons x rest =>
        rw [hqc] at hhead
        rw [hqc] at hone
        simp only [List.head?_cons, Option.some.injEq] at hhead
        simp only [List.length_cons] at hone
        have hrest : rest = [] := List.eq_nil_of_length_eq_zero (by omega)
        rw [hrest, hhead]
    dsimp only
    have hmapfst := map_fst_replace s.pages m
      (fun pr => updatedProperties pr.2 (buildProperties n))
    refine ⟨hq, ⟨?_, ?_⟩, ?_⟩
    · show ((s.pages.map fun pr =>
        if pr.1 = m then (pr.1, updatedProperties pr.2 (buildProperties n))
        else pr).map (·.1)).Nodup
      rw [hmapfst]
      exact hwf.1
    · intro i hi
      rw [hmapfst] at hi
      exact hwf.2 i hi
    · refine ⟨updatedProperties p (buildProperties n), ?_⟩
      show ((s.pages.map fun pr =>
        if pr.1 = m then (pr.1, updatedProperties pr.2 (buildProperties n))
        else pr).filter
          (fun pr => strIncludes (titlePlainText pr.2) (n.questionText.take 50))) = _
      have hfr := @filter_replace s.pages (n.questionText.take 50) m p
        (updatedProperties p (buildProperties n)) hwf.1 hfil
        (by rw [titlePlainText_updated]; exact strIncludes_take n.questionText 50)
      rw [← hfr]
      refine congrArg _ (List.map_congr_left ?_)
      intro pr hpr
      by_cases hprm : pr.1 = m
      · rw [if_pos hprm, if_pos hprm]
        have hmem : (m, p) ∈ s.pages := by
          have : (m, p) ∈ queryContains s (n.questionText.take 50) := by rw [hfil]; simp
          exact List.mem_of_mem_filter this
        have hpreq : pr = (m, p) := eq_of_fst_eq_of_nodup hwf.1 hpr hmem (by rw [hprm])
        rw [hpreq]
      · rw [if_neg hprm, if_neg hprm]
  | none =>
    have hnil : queryContains s (n.questionText.take 50) = [] :=
      queryContains_nil_of_find_none hq hf
    dsimp only
    refine ⟨hq, ⟨?_, ?_⟩, ?_⟩
    · rw [List.map_append]
      rw [List.nodup_append]
      refine ⟨hwf.1, by simp, ?_⟩
      intro i hi
      simp only [List.map_cons, List.map_nil, List.mem_singleton]
      intro hin
      have := hwf.2 i hi
      omega
    · intro i hi
      rw [List.map_append] at hi
      rcases List.mem_append.mp hi with h1 | h2
      · have := hwf.2 i h1
        show i < s.nextId + 1
        omega
      · simp only [List.map_cons, List.map_nil, List.mem_singleton] at h2
        show i < s.nextId + 1
        omega
    · refine ⟨buildProperties n, ?_⟩
      show ((s.pages ++ [(s.nextId, buildProperties n)]).filter
        (fun pr => strIncludes (titlePlainText pr.2) (n.questionText.take 50))) = _
      rw [List.filter_append]
      have hnilf : s.pages.filter
          (fun pr => strIncludes (titlePlainText pr.2) (n.questionText.take 50)) = [] := hnil
      rw [hnilf, List.nil_append, List.filter_cons,
        if_pos (by simp only [titlePlainText_build]; simpa using strIncludes_take n.questionText 50)]
      rfl

instance (s : WriteStore) : Decidable (StoreWF s) := by
  unfold StoreWF; exact inferInstance

theorem find_after_single {s : WriteStore} {key : Str} {m : Nat} {q : RawPage}
    (hq : s.queryFails = false) (hqc : queryContains s key = [(m, q)]) :
    findExistingPage s key = some m := by
  simp only [findExistingPage, hq, Bool.false_eq_true, if_false, hqc]
  rfl

theorem upsert_found {s : WriteStore} {n : ExamQuestionNote} {m : Nat}
    (hf : findExistingPage s (n.questionText.take 50) = some m) :
    (upsertQuestionNote s n).1 = m ∧
    (upsertQuestionNote s n).2.pages.length = s.pages.length := by
  simp only [upsertQuestionNote, hf]
  simp

/-! ### Concrete records and notes used as evaluation inputs -/

/-- A small valid, clean note: distinct choice texts none of which is a
substring of another, a canonical pillar slug, no optional fields. -/
def sampleNote : ExamQuestionNote where
  questionText := str "Which service stores objects?"
  choices := [str "Amazon S3", str "Amazon EC2"]
  correctAnswer := 1
  correctChoiceText := str "Amazon S3"
  explanation := str "S3 is object storage."
  relatedServices := [str "Amazon S3"]
  wellArchitectedCategories := [str "cost-optimization"]
  choiceExplanations :=
    [⟨1, str "Amazon S3", true, str "Correct."⟩,
     ⟨2, str "Amazon EC2", false, str "Compute."⟩]
  learningPoints := [str "Know S3."]
  architectureDiagram := none
  similarQuestionsHint := none

/-- A well-formed record with an absent choice-explanations property. -/
def w1page : RawPage where
  questionTextT := [str "q"]
  choicesT := [str "1. a\n2. b"]
  correctAnswerN := some 1
  correctChoiceTextT := []
  explanationT := []
  relatedServicesM := []
  wellArchitectedM := []
  choiceExplanationsT := []
  learningPointsT := []
  architectureDiagramT := []
  similarQuestionsHintT := []

/-- The note w1page decodes to: the explanations are synthesized. -/
def w1note : ExamQuestionNote where
  questionText := str "q"
  choices := [str "a", str "b"]
  correctAnswer := 1
  correctChoiceText := []
  explanation := []
  relatedServices := []
  wellArchitectedCategories := []
  choiceExplanations := [⟨1, str "a", true, []⟩, ⟨2, str "b", false, []⟩]
  learningPoints := []
  architectureDiagram := none
  similarQuestionsHint := none

/-- A record whose stored correct answer is 2 while the stored explanation
block carries the success glyph on the section for choice 1. -/
def c1page : RawPage where
  questionTextT := [str "q"]
  choicesT := [str "1. a\n2. b"]
  correctAnswerN := some 2
  correctChoiceTextT := [str "b"]
  explanationT := [str "e"]
  relatedServicesM := []
  wellArchitectedM := []
  choiceExplanationsT := [str "【選択肢1】✓ 正解\na\nx"]
  learningPointsT := []
  architectureDiagramT := []
  similarQuestionsHintT := []

/-- A valid note whose second choice text is a substring of the first, so the
includes-based section matching resolves both sections to choice 1. -/
def csubNote : ExamQuestionNote where
  questionText := str "q"
  choices := [str "ab", str "b"]
  correctAnswer := 1
  correctChoiceText := str "ab"
  explanation := str "e"
  relatedServices := []
  wellArchitectedCategories := []
  choiceExplanations := [⟨1, str "ab", true, str "x"⟩, ⟨2, str "b", false, str "y"⟩]
  learningPoints := []
  architectureDiagram := none
  similarQuestionsHint := none

/-- A valid note with two identical choice texts. -/
def c3note : ExamQuestionNote where
  questionText := str "q"
  choices := [str "b", str "b"]
  correctAnswer := 1
  correctChoiceText := str "b"
  explanation := str "e"
  relatedServices := []
  wellArchitectedCategories := []
  choiceExplanations := [⟨1, str "b", true, str "x"⟩, ⟨2, str "b", false, str "y"⟩]
  learningPoints := []
  architectureDiagram := none
  similarQuestionsHint := none

/-- A record with a valid title, choices and correct answer whose
choice-explanations block parses to zero sections. -/
def c6page : RawPage where
  questionTextT := [str "q"]
  choicesT := [str "1. a\n2. b"]
  correctAnswerN := some 2
  correctChoiceTextT := []
  explanationT := []
  relatedServicesM := []
  wellArchitectedM := []
  choiceExplanationsT := [str "garbled"]
  learningPointsT := []
  architectureDiagramT := []
  similarQuestionsHintT := []

/-- An empty failure-free store with no records. -/
def store0 : WriteStore := ⟨[], 0, false⟩

/-- An empty store whose query endpoint fails. -/
def failStore : WriteStore := ⟨[], 5, true⟩

/-- A record carrying a second text segment on the title property. -/
def headApage : RawPage :=
  ⟨[str "q", str "extra tail segment"], [str "1. a\n2. b"], some 1,
    [], [], [], [], [], [], [], []⟩

/-- The same record truncated to the first segment of every property. -/
def headBpage : RawPage :=
  ⟨[str "q"], [str "1. a\n2. b"], some 1, [], [], [], [], [], [], [], []⟩

/-- Absence of the structural marker tokens in a text, as the spec's
round-trip side condition states it: no marker bracket characters, no status
glyph characters, no bullet separator. -/
def TokenFree (s : Str) : Bool :=
  !(s.any (fun c => c = '【' || c = '】' || c = '✓' || c = '✗')) &&
  !(strIncludes s nlBullet)

/-- The round-trip side condition exactly as the spec words it: every
free-text field is free of the structural marker tokens, and choice texts
carry no embedded newline.  (Modelled from the spec, for comparison with the
behaviour of the code.) -/
def SpecClean (n : ExamQuestionNote) : Prop :=
  TokenFree n.questionText = true ∧
  TokenFree n.explanation = true ∧
  (∀ c ∈ n.choices, TokenFree c = true ∧ '\n' ∉ c) ∧
  (∀ ce ∈ n.choiceExplanations,
    TokenFree ce.choiceText = true ∧ '\n' ∉ ce.choiceText ∧
    TokenFree ce.explanation = true) ∧
  (∀ p ∈ n.learningPoints, TokenFree p = true)

instance (n : ExamQuestionNote) : Decidable (SpecClean n) := by
  unfold SpecClean; exact inferInstance

/-! ### Claim theorems -/

/-- C1 (amended): on every accepted record, the decoded choice-explanations
list has the set of choice numbers exactly 1..len(choices), is sorted by
choice number ascending, and has at least one entry per choice.  The further
parts of the claim — length exactly len(choices), no repeated numbers, and
isCorrect flags matching correctAnswer — do not hold on partially-corrupt
storage: repeats arise when distinct sections match the same choice, and the
flags follow the stored status glyphs, not the correct-answer field. -/
theorem decode_choice_invariant {r : RawPage} {n : ExamQuestionNote}
    (h : parseNotionPage r = some n) :
    (∀ k : Int, k ∈ n.choiceExplanations.map (·.choiceNumber) ↔
      1 ≤ k ∧ k ≤ (n.choices.length : Int)) ∧
    List.Pairwise ceLE n.choiceExplanations ∧
    n.choices.length ≤ n.choiceExplanations.length := by
  obtain ⟨hch, hne, hb1, hb2, hcan, hces⟩ := parseNotionPage_some_inv h
  rw [hces]
  exact parseChoiceExplanations_invariant _ _ _

/-- Instantiation of C1 on a concrete accepted record. -/
theorem decode_choice_invariant_witness :
    List.Pairwise ceLE w1note.choiceExplanations ∧
    w1note.choices.length ≤ w1note.choiceExplanations.length :=
  (@decode_choice_invariant w1page w1note (by decide)).2

/-- C1 counterexample: a record decodes with correct answer 2 while its
decoded explanation entry for choice 1 — and only that entry — carries
isCorrect = true, because the flag is read from the stored glyph. -/
theorem correct_flag_counterexample :
    (parseNotionPage c1page).map (fun n => (n.correctAnswer,
      n.choiceExplanations.map (fun ce => (ce.choiceNumber, ce.isCorrect)))) =
      some (2, [(1, true), (2, false)]) := by decide

/-- C2 (amended): the codec round-trips on valid notes under the clean-note
side conditions, which strengthen the spec's marker-token freedom with, in
particular, collision-free includes-based matching of choice texts; empty
optional fields collapse to absent ones. -/
theorem roundTrip_valid_clean {n : ExamQuestionNote} (hv : ValidNote n)
    (hc : CleanNote n) :
    parseNotionPage (buildProperties n) =
      some { n with
        architectureDiagram := optNorm n.architectureDiagram
        similarQuestionsHint := optNorm n.similarQuestionsHint } :=
  parse_build_roundTrip hv hc

/-- Instantiation of C2 on a concrete valid, clean note. -/
theorem roundTrip_valid_clean_witness :
    ValidNote sampleNote ∧ CleanNote sampleNote ∧
    parseNotionPage (buildProperties sampleNote) =
      some { sampleNote with
        architectureDiagram := optNorm sampleNote.architectureDiagram
        similarQuestionsHint := optNorm sampleNote.similarQuestionsHint } :=
  ⟨by decide, by decide, roundTrip_valid_clean (by decide) (by decide)⟩

/-- C2 counterexample: a valid note satisfying the spec's literal side
condition (marker-token freedom) whose decode after encode differs on the
required choiceExplanations field — the second choice text is a substring of
the first, so both stored sections resolve to choice 1. -/
theorem roundTrip_substring_counterexample :
    ValidNote csubNote ∧ SpecClean csubNote ∧
    (parseNotionPage (buildProperties csubNote)).isSome = true ∧
    (parseNotionPage (buildProperties csubNote)).map (·.choiceExplanations) ≠
      some csubNote.choiceExplanations := by decide

/-- C3 (amended): under the clean-note side conditions the encode-then-decode
choice count is exactly len(choices) with numbers exactly 1..len(choices) in
order.  Without a side condition the invariant fails: duplicate choice texts
make several sections resolve to the same choice. -/
theorem choiceCount_valid_clean {n : ExamQuestionNote} (hv : ValidNote n)
    (hc : CleanNote n) :
    (parseNotionPage (buildProperties n)).map
      (fun m => (m.choiceExplanations.length, m.choiceExplanations.map (·.choiceNumber))) =
      some (n.choices.length,
        (List.range n.choices.length).map (fun (i : Nat) => (i : Int) + 1)) := by
  rw [parse_build_roundTrip hv hc]
  simp only [Option.map_some']
  refine congrArg some ?_
  have hnums := hv.2.2.2.2.2.1
  have hlen : n.choiceExplanations.length = n.choices.length := by
    have := congrArg List.length hnums
    simpa using this
  show (n.choiceExplanations.length, n.choiceExplanations.map (·.choiceNumber)) = _
  rw [hlen, hnums]

/-- Instantiation of C3 on a concrete valid, clean note. -/
theorem choiceCount_valid_clean_witness :
    ValidNote sampleNote ∧ CleanNote sampleNote ∧
    (parseNotionPage (buildProperties sampleNote)).map
      (fun m => (m.choiceExplanations.length, m.choiceExplanations.map (·.choiceNumber))) =
      some (sampleNote.choices.length,
        (List.range sampleNote.choices.length).map (fun (i : Nat) => (i : Int) + 1)) :=
  ⟨by decide, by decide, choiceCount_valid_clean (by decide) (by decide)⟩

/-- C3 counterexample: a valid note with two identical choices decodes to
three choice-explanation entries — both stored sections resolve to choice 1
and choice 2 is backfilled — so the count invariant fails without a
distinctness side condition. -/
theorem choiceCount_duplicate_counterexample :
    ValidNote c3note ∧ c3note.choices.length = 2 ∧
    (parseNotionPage (buildProperties c3note)).map
      (fun m => m.choiceExplanations.length) = some 3 := by decide

/-- C4: upserting the same note twice into a working store holding at most
one match returns the same identifier both times; the second call finds the
record written by the first (a title contains its own 50-character prefix),
takes the update path, leaves the page count unchanged, and exactly one
stored record matches the question afterwards. -/
theorem upsert_convergence {s : WriteStore} (n : ExamQuestionNote)
    (hq : s.queryFails = false) (hwf : StoreWF s)
    (hone : (queryContains s (n.questionText.take 50)).length ≤ 1) :
    (upsertQuestionNote (upsertQuestionNote s n).2 n).1 = (upsertQuestionNote s n).1 ∧
    findExistingPage (upsertQuestionNote s n).2 (n.questionText.take 50) =
      some (upsertQuestionNote s n).1 ∧
    (queryContains (upsertQuestionNote (upsertQuestionNote s n).2 n).2
      (n.questionText.take 50)).length = 1 ∧
    (upsertQuestionNote (upsertQuestionNote s n).2 n).2.pages.length =
      (upsertQuestionNote s n).2.pages.length := by
  obtain ⟨hq1, hwf1, q, hqc1⟩ := upsert_once n hq hwf hone
  have hfind1 : findExistingPage (upsertQuestionNote s n).2 (n.questionText.take 50) =
      some (upsertQuestionNote s n).1 := find_after_single hq1 hqc1
  have hone1 : (queryContains (upsertQuestionNote s n).2
      (n.questionText.take 50)).length ≤ 1 := by
    rw [hqc1]
    exact Nat.le_refl 1
  obtain ⟨hq2, hwf2, q2, hqc2⟩ :=
    upsert_once (s := (upsertQuestionNote s n).2) n hq1 hwf1 hone1
  have hfound := upsert_found hfind1
  refine ⟨hfound.1, hfind1, ?_, hfound.2⟩
  rw [hqc2]
  rfl

/-- Instantiation of C4 on an empty working store. -/
theorem upsert_convergence_witness :
    StoreWF store0 ∧
    (queryContains store0 (sampleNote.questionText.take 50)).length ≤ 1 ∧
    ((upsertQuestionNote (upsertQuestionNote store0 sampleNote).2 sampleNote).1 =
        (upsertQuestionNote store0 sampleNote).1 ∧
      findExistingPage (upsertQuestionNote store0 sampleNote).2
          (sampleNote.questionText.take 50) =
        some (upsertQuestionNote store0 sampleNote).1 ∧
      (queryContains (upsertQuestionNote
          (upsertQuestionNote store0 sampleNote).2 sampleNote).2
        (sampleNote.questionText.take 50)).length = 1 ∧
      (upsertQuestionNote (upsertQuestionNote store0 sampleNote).2 sampleNote).2.pages.length =
        (upsertQuestionNote store0 sampleNote).2.pages.length) :=
  ⟨by decide, by decide, upsert_convergence sampleNote rfl (by decide) (by decide)⟩

/-- C5: the decoder returns none exactly when the title is empty, the
recovered choice list is empty, or the numeric correct answer is missing or
out of range; being a total function it never throws. -/
theorem decode_rejects_iff (r : RawPage) :
    parseNotionPage r = none ↔
      headContent r.questionTextT = [] ∨
      decodeChoicesText (headContent r.choicesT) = [] ∨
      r.correctAnswerN = none ∨
      ∃ ca : Int, r.correctAnswerN = some ca ∧
        (ca < 1 ∨ ca > ((decodeChoicesText (headContent r.choicesT)).length : Int)) :=
  parseNotionPage_none_iff r

/-- C6: a record with a non-empty title, non-empty choices and in-range
correct answer whose explanation block parses to zero sections still decodes,
with one synthesized entry per choice, empty explanation text, and isCorrect
exactly at the correct answer. -/
theorem fallback_reconstruction {r : RawPage} {ca : Int}
    (ht : headContent r.questionTextT ≠ [])
    (hcne : decodeChoicesText (headContent r.choicesT) ≠ [])
    (hca : r.correctAnswerN = some ca)
    (hlo : 1 ≤ ca)
    (hhi : ca ≤ ((decodeChoicesText (headContent r.choicesT)).length : Int))
    (hz : parsedExplanations (headContent r.choiceExplanationsT)
      (decodeChoicesText (headContent r.choicesT)) = []) :
    ∃ n, parseNotionPage r = some n ∧
      n.choiceExplanations.length = n.choices.length ∧
      n.choiceExplanations.map (·.choiceNumber) =
        (List.range n.choices.length).map (fun (i : Nat) => (i : Int) + 1) ∧
      ∀ ce ∈ n.choiceExplanations,
        ce.explanation = [] ∧ (ce.isCorrect = true ↔ ce.choiceNumber = n.correctAnswer) := by
  have hnn : ¬ parseNotionPage r = none := by
    rw [parseNotionPage_none_iff]
    push_neg
    refine ⟨ht, hcne, ?_, ?_⟩
    · rw [hca]
      exact fun hx => Option.noConfusion hx
    · intro ca2 hca2
      rw [hca, Option.some.injEq] at hca2
      subst hca2
      constructor <;> omega
  cases hp : parseNotionPage r with
  | none => exact absurd hp hnn
  | some n =>
    obtain ⟨hch, hne2, hb1, hb2, hcan, hces⟩ := parseNotionPage_some_inv hp
    have hfb : n.choiceExplanations = fallbackExplanations n.choices n.correctAnswer := by
      rw [hces]
      refine parseChoiceExplanations_fallback ?_
      rw [hch]
      exact hz
    refine ⟨n, rfl, ?_, ?_, ?_⟩
    · rw [hfb]
      exact fallback_length _ _
    · rw [hfb]
      exact fallback_map_num _ _
    · intro ce hce
      rw [hfb] at hce
      exact fallback_mem hce

/-- Instantiation of C6 on a concrete record with a garbled block. -/
theorem fallback_reconstruction_witness :
    ∃ n, parseNotionPage c6page = some n ∧
      n.choiceExplanations.length = n.choices.length ∧
      n.choiceExplanations.map (·.choiceNumber) =
        (List.range n.choices.length).map (fun (i : Nat) => (i : Int) + 1) ∧
      ∀ ce ∈ n.choiceExplanations,
        ce.explanation = [] ∧ (ce.isCorrect = true ↔ ce.choiceNumber = n.correctAnswer) :=
  @fallback_reconstruction c6page 2 (by decide) (by decide) rfl (by decide)
    (by decide) (by decide)

/-- C7: the exhaustive paginated scan returns exactly the records whose
decode is non-null, in store order: a record decoding to null is skipped
without aborting the scan. -/
theorem listAll_skips_null_decodes (s : ReadStore) :
    getAllQuestions s = s.pages.filterMap parseNotionPage :=
  getAllQuestions_spec s

/-- C8 (amended): the fallback-only normalizer of the decode path is
idempotent on every string; the table-plus-fallback callback is idempotent on
every string whose hyphenated lower-casing is not a property name inherited
from Object.prototype.  It is not idempotent on every string: the access
mapping[cat] consults the prototype chain, so a string whose fallback
normalization is an inherited key (such as the one of
normalizer_proto_counterexample) first normalizes to that key and then to the
inherited truthy non-string member. -/
theorem normalizer_idempotent {s : Str} (h : normalizeFallback s ∉ protoKeys) :
    normalizeCell (normalizeCell (JsValue.strv s)) = normalizeCell (JsValue.strv s) ∧
    normalizeFallback (normalizeFallback s) = normalizeFallback s := by
  refine ⟨?_, normalizeFallback_idem s⟩
  cases hl : lookupMapping s with
  | some v =>
    have h1 : normalizeCell (JsValue.strv s) = JsValue.strv v := by
      simp only [normalizeCell, jsAccessMapping, hl]
    rw [h1]
    exact slug_cell_fixed v (lookupMapping_mem hl)
  | none =>
    by_cases hpk : s ∈ protoKeys
    · have h1 : normalizeCell (JsValue.strv s) = JsValue.objv s := by
        simp only [normalizeCell, jsAccessMapping, hl, if_pos hpk]
      rw [h1]
      rfl
    · have h1 : normalizeCell (JsValue.strv s) = JsValue.strv (normalizeFallback s) := by
        simp only [normalizeCell, jsAccessMapping, hl, if_neg hpk]
      rw [h1]
      cases hl2 : lookupMapping (normalizeFallback s) with
      | none =>
        have h2 : normalizeCell (JsValue.strv (normalizeFallback s)) =
            JsValue.strv (normalizeFallback (normalizeFallback s)) := by
          simp only [normalizeCell, jsAccessMapping, hl2, if_neg h]
        rw [h2, normalizeFallback_idem]
      | some v =>
        have h2 : normalizeCell (JsValue.strv (normalizeFallback s)) = JsValue.strv v := by
          simp only [normalizeCell, jsAccessMapping, hl2]
        rw [h2]
        exact congrArg JsValue.strv (lookup_fallback_fixed hl2)

/-- Instantiation of C8 on a table variant and, through the second conjunct,
on every fallback application. -/
theorem normalizer_idempotent_witness :
    normalizeFallback (str "Cost Optimization") ∉ protoKeys ∧
    (normalizeCell (normalizeCell (JsValue.strv (str "Cost Optimization"))) =
        normalizeCell (JsValue.strv (str "Cost Optimization")) ∧
      normalizeFallback (normalizeFallback (str "Cost Optimization")) =
        normalizeFallback (str "Cost Optimization")) :=
  ⟨by decide, normalizer_idempotent (by decide)⟩

/-- C8 counterexample: the table-plus-fallback callback is not idempotent on
every string.  The first application lower-cases the input to an inherited
Object.prototype key, the second application finds the inherited truthy
member through the prototype chain and returns that non-string value. -/
theorem normalizer_proto_counterexample :
    normalizeCell (JsValue.strv (str "Constructor")) =
      JsValue.strv (str "constructor") ∧
    normalizeCell (normalizeCell (JsValue.strv (str "Constructor"))) ≠
      normalizeCell (JsValue.strv (str "Constructor")) := by decide

/-- C9: when the query endpoint fails, findExistingPage swallows the failure
into a not-found answer and the upsert still writes, taking the create
path: it returns the fresh identifier and appends the encoded record. -/
theorem query_failure_creates {s : WriteStore} (n : ExamQuestionNote)
    (hq : s.queryFails = true) :
    findExistingPage s (n.questionText.take 50) = none ∧
    (upsertQuestionNote s n).1 = s.nextId ∧
    (upsertQuestionNote s n).2.pages = s.pages ++ [(s.nextId, buildProperties n)] := by
  have hf : findExistingPage s (n.questionText.take 50) = none := by
    simp [findExistingPage, hq]
  refine ⟨hf, ?_, ?_⟩
  · simp [upsertQuestionNote, hf]
  · simp [upsertQuestionNote, hf]

/-- Instantiation of C9 on a store whose query endpoint fails. -/
theorem query_failure_creates_witness :
    findExistingPage failStore (sampleNote.questionText.take 50) = none ∧
    (upsertQuestionNote failStore sampleNote).1 = failStore.nextId ∧
    (upsertQuestionNote failStore sampleNote).2.pages =
      failStore.pages ++ [(failStore.nextId, buildProperties sampleNote)] :=
  @query_failure_creates failStore sampleNote rfl

/-- C10: the decoder reads only element 0 of every title and rich-text
property: two records agreeing on those heads and on the number and
multi-select properties decode identically, so later segments are ignored. -/
theorem parse_reads_head_only {r1 r2 : RawPage}
    (h1 : r1.questionTextT.head? = r2.questionTextT.head?)
    (h2 : r1.choicesT.head? = r2.choicesT.head?)
    (h3 : r1.correctAnswerN = r2.correctAnswerN)
    (h4 : r1.correctChoiceTextT.head? = r2.correctChoiceTextT.head?)
    (h5 : r1.explanationT.head? = r2.explanationT.head?)
    (h6 : r1.relatedServicesM = r2.relatedServicesM)
    (h7 : r1.wellArchitectedM = r2.wellArchitectedM)
    (h8 : r1.choiceExplanationsT.head? = r2.choiceExplanationsT.head?)
    (h9 : r1.learningPointsT.head? = r2.learningPointsT.head?)
    (hA : r1.architectureDiagramT.head? = r2.architectureDiagramT.head?)
    (hB : r1.similarQuestionsHintT.head? = r2.similarQuestionsHintT.head?) :
    parseNotionPage r1 = parseNotionPage r2 := by
  simp only [parseNotionPage, headContent, optContent,
    h1, h2, h3, h4, h5, h6, h7, h8, h9, hA, hB]

/-- Instantiation of C10: a second title segment does not change the decode. -/
theorem parse_reads_head_only_witness :
    parseNotionPage headApage = parseNotionPage headBpage :=
  parse_reads_head_only rfl rfl rfl rfl rfl rfl rfl rfl rfl rfl rfl

end AwsNote
